import Mathlib

/-!
Verification development for the resilient task-orchestration core of the
browser-agent repository: dependency graph (ready sets, cycle detection,
topological order), the multi-step orchestrator loop, the task executor,
the error classifier / recovery planner and the retry backoff.

Python dictionaries are modelled as insertion-ordered association lists
(`Dict`), Python sets as lists used only through membership, floats as
rationals, and exceptions as `Except` / explicit error components.
-/

set_option maxHeartbeats 1000000

namespace BrowserAgent

/-! ### Insertion-ordered dictionaries (Python `dict`) -/

/-- An insertion-ordered string-keyed dictionary, as a plain association
list.  All operations keep Python `dict` semantics: updating an existing
key keeps its position, a new key is appended at the end, iteration is in
insertion order. -/
abbrev Dict (α : Type) : Type := List (String × α)

namespace Dict

def empty {α : Type} : Dict α := []

def get? {α : Type} (d : Dict α) (k : String) : Option α :=
  match d with
  | [] => none
  | (k', v) :: rest => if k' = k then some v else get? rest k

/-- Python `k in d`. -/
def hasKey {α : Type} (d : Dict α) (k : String) : Bool :=
  (d.get? k).isSome

/-- Python `d[k] = v`: replace in place, else append. -/
def insert {α : Type} (d : Dict α) (k : String) (v : α) : Dict α :=
  match d with
  | [] => [(k, v)]
  | (k', v') :: rest =>
    if k' = k then (k', v) :: rest else (k', v') :: insert rest k v

def keys {α : Type} (d : Dict α) : List String := d.map Prod.fst

def values {α : Type} (d : Dict α) : List α := d.map Prod.snd

/-- Python `d.get(k, default)`. -/
def getD {α : Type} (d : Dict α) (k : String) (dflt : α) : α :=
  (d.get? k).getD dflt

end Dict

/-! ### Enumerations (src/agent/multi_step/enums.py) -/

inductive TaskType
  | NAVIGATE | FILL_FORM | CLICK_ELEMENT | EXTRACT_DATA
  | WAIT_FOR_CONDITION | CONDITIONAL_BRANCH | LOOP_TASK | COMPOSITE_TASK
  deriving DecidableEq, Repr

/-- The `.value` string of a `TaskType`. -/
def TaskType.val : TaskType → String
  | .NAVIGATE => "navigate"
  | .FILL_FORM => "fill_form"
  | .CLICK_ELEMENT => "click_element"
  | .EXTRACT_DATA => "extract_data"
  | .WAIT_FOR_CONDITION => "wait_for_condition"
  | .CONDITIONAL_BRANCH => "conditional_branch"
  | .LOOP_TASK => "loop_task"
  | .COMPOSITE_TASK => "composite_task"

inductive TaskPriority
  | CRITICAL | HIGH | NORMAL
  deriving DecidableEq, Repr

/-- The `.value` integer of a `TaskPriority`. -/
def TaskPriority.val : TaskPriority → Nat
  | .CRITICAL => 3
  | .HIGH => 2
  | .NORMAL => 1

/-- The `.name` string of a `TaskPriority`. -/
def TaskPriority.nameStr : TaskPriority → String
  | .CRITICAL => "CRITICAL"
  | .HIGH => "HIGH"
  | .NORMAL => "NORMAL"

inductive TaskStatus
  | PENDING | RUNNING | SUCCESS | FAILED | BLOCKED
  deriving DecidableEq, Repr

/-- The `.value` string of a `TaskStatus`. -/
def TaskStatus.val : TaskStatus → String
  | .PENDING => "pending"
  | .RUNNING => "running"
  | .SUCCESS => "success"
  | .FAILED => "failed"
  | .BLOCKED => "blocked"

inductive DependencyType
  | SEQUENTIAL | PARALLEL | CONDITIONAL | WAIT_FOR
  deriving DecidableEq, Repr

/-! ### Data model (src/agent/multi_step/models.py) -/

/-- A dynamically typed task parameter value (string or number). -/
inductive ParamValue
  | pstr (s : String)
  | pnum (q : ℚ)
  deriving DecidableEq, Repr

structure TaskDependency where
  task_id : String
  dep_type : DependencyType
  condition : Option String := none
  deriving DecidableEq, Repr

structure TaskDefinition where
  id : String
  type : TaskType
  priority : TaskPriority := .NORMAL
  description : String := ""
  parameters : Dict ParamValue := []
  dependencies : List TaskDependency := []
  retry_count : Nat := 3
  timeout : ℚ := 30
  deriving DecidableEq, Repr

/-- The dictionary payload `_execute_task` returns on each dispatch branch. -/
inductive Payload
  | navigatedTo (url : Option ParamValue)
  | filled (selector : Option ParamValue)
  | clicked (selector : Option ParamValue)
  | extracted (data : ParamValue)
  | conditionMet
  deriving DecidableEq, Repr

/-- `TaskResult`; wall-clock fields (`timestamp`) are not modelled and
`execution_time_ms` is abstracted to the value the caller supplies. -/
structure TaskResult where
  task_id : String
  status : TaskStatus
  success : Bool
  result : Option Payload := none
  error : Option String := none
  execution_time_ms : ℚ := 0
  retry_attempts : Nat := 0
  deriving DecidableEq, Repr

structure TaskMetrics where
  total_tasks : Nat := 0
  completed_tasks : Nat := 0
  failed_tasks : Nat := 0
  pending_tasks : Nat := 0
  tasks_by_type : Dict Nat := []
  tasks_by_priority : Dict Nat := []
  tasks_by_status : Dict Nat := []
  success_rate : ℚ := 0
  avg_task_time_ms : ℚ := 0
  critical_failures : Nat := 0
  retries_used : Nat := 0
  total_time_ms : ℚ := 0
  deriving DecidableEq, Repr

/-! ### Dependency graph (src/agent/multi_step/dependency_graph.py) -/

structure DependencyGraph where
  tasks : Dict TaskDefinition := []
  graph : Dict (List String) := []
  reverse_graph : Dict (List String) := []
  deriving DecidableEq, Repr

namespace DependencyGraph

/-- `self.graph.get(node, [])`. -/
def adjOf (g : DependencyGraph) (node : String) : List String :=
  g.graph.getD node []

/-- `self.reverse_graph.get(task_id, [])`. -/
def revAdjOf (g : DependencyGraph) (node : String) : List String :=
  g.reverse_graph.getD node []

/-- The dependency-registration loop of `add_task`: walks the declared
dependencies in order, adding an edge for each; stops (with the raised
message) at the first dependency whose id is not registered.  Mutations
made before the failure are kept, as in the source. -/
def addDeps (t : TaskDefinition) :
    List TaskDependency → DependencyGraph → DependencyGraph × Option String
  | [], g => (g, none)
  | d :: rest, g =>
    if g.tasks.hasKey d.task_id then
      addDeps t rest
        { g with
          graph := g.graph.insert d.task_id (g.adjOf d.task_id ++ [t.id])
          reverse_graph :=
            g.reverse_graph.insert t.id (g.revAdjOf t.id ++ [d.task_id]) }
    else
      (g, some ("Dependency task " ++ d.task_id ++ " not found"))

/-- `add_task`: registers the node (and empty adjacency rows) first, then
adds dependency edges; a missing dependency aborts mid-way, leaving the
partial mutations in place. -/
def add_task (g : DependencyGraph) (t : TaskDefinition) :
    DependencyGraph × Option String :=
  addDeps t t.dependencies
    { tasks := g.tasks.insert t.id t
      graph := g.graph.insert t.id []
      reverse_graph := g.reverse_graph.insert t.id [] }

/-- `get_ready_tasks` before sorting: registered tasks, in registration
order, that are not completed and whose reverse edges all lie in
`completed`. -/
def readyFilter (g : DependencyGraph) (completed : List String) :
    List TaskDefinition :=
  (g.tasks.filter fun e =>
      decide (e.1 ∉ completed) &&
        (g.revAdjOf e.1).all fun dep => decide (dep ∈ completed)).map
    Prod.snd

/-- `ready.sort(key=lambda t: t.priority.value, reverse=True)`: stable
descending insertion by priority value (Python's sort is stable and
`reverse=True` keeps equal elements in input order). -/
def sortInsert (t : TaskDefinition) :
    List TaskDefinition → List TaskDefinition
  | [] => [t]
  | u :: rest =>
    if t.priority.val < u.priority.val then u :: sortInsert t rest
    else t :: u :: rest

def sortReady : List TaskDefinition → List TaskDefinition
  | [] => []
  | t :: rest => sortInsert t (sortReady rest)

def get_ready_tasks (g : DependencyGraph) (completed : List String) :
    List TaskDefinition :=
  sortReady (g.readyFilter completed)

/-! #### Cycle detection -/

structure DetectState where
  visited : List String
  rec_stack : List String
  cycles : List (List String)
  deriving DecidableEq, Repr

/-- `path[path.index(neighbor):] + [neighbor]`. -/
def cycleSlice (path1 : List String) (nb : String) : List String :=
  path1.drop (path1.indexOf nb) ++ [nb]

/-- The `for neighbor in self.graph.get(node, [])` loop body of the
cycle-detection `dfs`; the recursive `dfs` call is abstracted as `rec`
(instantiated with the next fuel level below). -/
def detectGoAux (rec : String → List String → DetectState → DetectState)
    (path1 : List String) :
    List String → DetectState → DetectState
  | [], st => st
  | nb :: rest, st =>
    let st' :=
      if nb ∈ st.visited then
        if nb ∈ st.rec_stack then
          { st with cycles := st.cycles ++ [cycleSlice path1 nb] }
        else st
      else rec nb path1 st
    detectGoAux rec path1 rest st'

/-- The inner `dfs(node, path)` of `detect_cycles`, with fuel.  The fuel
supplied by `detect_cycles` always exceeds the recursion depth, so the
fuel-exhausted branch is never taken on graph states the code builds. -/
def detectDfs (g : DependencyGraph) :
    Nat → String → List String → DetectState → DetectState
  | 0, _, _, st => st
  | f + 1, node, path, st =>
    let path1 := path ++ [node]
    let st1 := { st with
      visited := node :: st.visited
      rec_stack := node :: st.rec_stack }
    let st2 := detectGoAux (detectDfs g f) path1 (g.adjOf node) st1
    { st2 with rec_stack := st2.rec_stack.erase node }

/-- Fuel that strictly bounds the depth of graph DFS recursion: every dfs
call marks a previously unvisited node (a registered key or an adjacency
target) as visited. -/
def graphFuel (g : DependencyGraph) : Nat :=
  g.tasks.keys.length + (g.graph.map fun e => e.2.length).sum + 1

def detect_cycles (g : DependencyGraph) : List (List String) :=
  (g.tasks.keys.foldl
    (fun st k =>
      if k ∈ st.visited then st else detectDfs g (graphFuel g) k [] st)
    ⟨[], [], []⟩).cycles

/-! #### Topological order -/

structure OrderState where
  visited : List String
  order : List String
  deriving DecidableEq, Repr

/-- The neighbor loop of the `get_execution_order` `dfs`. -/
def orderGoAux (rec : String → OrderState → OrderState) :
    List String → OrderState → OrderState
  | [], st => st
  | nb :: rest, st =>
    let st' := if nb ∈ st.visited then st else rec nb st
    orderGoAux rec rest st'

/-- The inner `dfs(node)` of `get_execution_order`, with fuel. -/
def orderDfs (g : DependencyGraph) : Nat → String → OrderState → OrderState
  | 0, _, st => st
  | f + 1, node, st =>
    let st1 := { st with visited := node :: st.visited }
    let st2 := orderGoAux (orderDfs g f) (g.adjOf node) st1
    { st2 with order := st2.order ++ [node] }

def orderRun (g : DependencyGraph) : OrderState :=
  g.tasks.keys.foldl
    (fun st k =>
      if k ∈ st.visited then st else orderDfs g (graphFuel g) k st)
    ⟨[], []⟩

def get_execution_order (g : DependencyGraph) : Except String (List String) :=
  if g.detect_cycles ≠ [] then .error "Cyclic dependency detected"
  else .ok (g.orderRun.order.reverse)

end DependencyGraph

/-- The `for task in tasks: graph.add_task(task)` loop of `execute_tasks`:
the first raised missing-dependency error aborts the build. -/
def buildGraph : List TaskDefinition → DependencyGraph →
    DependencyGraph × Option String
  | [], g => (g, none)
  | t :: rest, g =>
    match g.add_task t with
    | (g', none) => buildGraph rest g'
    | (g', some e) => (g', some e)

/-! ### Task executor (src/agent/multi_step/task_executor.py) -/

/-- The action collaborator consumed by the executor (the browser agent),
abstract: each operation either returns or raises. -/
structure Browser where
  navigate : Option ParamValue → Except String Unit
  fill_form : Option ParamValue → Option ParamValue → Except String Unit
  click : Option ParamValue → Except String Unit
  extract_data : Option ParamValue → Except String ParamValue
  wait_for : Option ParamValue → ParamValue → Except String Unit

/-- `TaskExecutor._execute_task`: dispatch on the task's type tag.  The
enum repr inside the unknown-type message is abstracted to the tag's
`.value` string. -/
def executeTask (b : Browser) (t : TaskDefinition) : Except String Payload :=
  match t.type with
  | .NAVIGATE =>
    let url := t.parameters.get? "url"
    (b.navigate url).map fun _ => .navigatedTo url
  | .FILL_FORM =>
    let selector := t.parameters.get? "selector"
    let value := t.parameters.get? "value"
    (b.fill_form selector value).map fun _ => .filled selector
  | .CLICK_ELEMENT =>
    let selector := t.parameters.get? "selector"
    (b.click selector).map fun _ => .clicked selector
  | .EXTRACT_DATA =>
    let selector := t.parameters.get? "selector"
    (b.extract_data selector).map fun d => .extracted d
  | .WAIT_FOR_CONDITION =>
    let condition := t.parameters.get? "condition"
    let timeout := t.parameters.getD "timeout" (.pnum t.timeout)
    (b.wait_for condition timeout).map fun _ => .conditionMet
  | other => .error ("Unknown task type: " ++ other.val)

/-- `TaskExecutor.execute`: wraps any dispatch outcome into a
`TaskResult`; wall-clock duration is abstracted to `0`. -/
def executor_execute (b : Browser) (t : TaskDefinition) : TaskResult :=
  match executeTask b t with
  | .ok payload =>
    { task_id := t.id, status := .SUCCESS, success := true
      result := some payload }
  | .error e =>
    { task_id := t.id, status := .FAILED, success := false
      error := some e }

/-! ### Orchestrator (src/agent/multi_step/multi_step_manager.py) -/

structure ManagerState where
  results : Dict TaskResult := []
  metrics : TaskMetrics := {}
  deriving DecidableEq, Repr

inductive ExecOutcome
  | ok (results : Dict TaskResult)
  | depError (msg : String)
  | cycleError (cycles : List (List String))
  | deadlock (pending : List String)
  | outOfFuel
  deriving DecidableEq, Repr

/-- Python's `d[name] = d.get(name, 0) + 1` accumulation loops in
`_update_metrics`. -/
def countByKeys (ks : List String) (d : Dict Nat) : Dict Nat :=
  ks.foldl (fun d k => d.insert k (d.getD k 0 + 1)) d

/-- `MultiStepTaskManager._update_metrics`. -/
def update_metrics (tasks : List TaskDefinition) (total_time_s : ℚ)
    (st : ManagerState) : ManagerState :=
  let results := st.results
  let m0 := st.metrics
  let m1 : TaskMetrics := { m0 with
    total_tasks := tasks.length
    completed_tasks := (results.values.filter fun r => r.success).length
    failed_tasks := (results.values.filter fun r => !r.success).length
    total_time_ms := total_time_s * 1000
    tasks_by_type :=
      countByKeys (tasks.map fun t => t.type.val) m0.tasks_by_type
    tasks_by_priority :=
      countByKeys (tasks.map fun t => t.priority.nameStr) m0.tasks_by_priority
    tasks_by_status :=
      countByKeys (results.values.map fun r => r.status.val)
        m0.tasks_by_status }
  -- the source tests the just-assigned `self.metrics.total_tasks`,
  -- which is `len(tasks)`
  let m2 : TaskMetrics :=
    if tasks.length > 0 then
      { m1 with
        success_rate := (m1.completed_tasks : ℚ) / (m1.total_tasks : ℚ) }
    else m1
  let m3 : TaskMetrics :=
    if results ≠ [] then
      { m2 with
        avg_task_time_ms :=
          (results.values.map fun r => r.execution_time_ms).sum /
            (results.length : ℚ) }
    else m2
  { st with metrics := m3 }

/-- Python `set.add`. -/
def addIfAbsent (x : String) (l : List String) : List String :=
  if x ∈ l then l else l ++ [x]

/-- The `for task, result in zip(tasks_to_run, results)` fold of the run
loop: stores each result, moves the id into completed or failed, and
counts critical failures. -/
def foldResults :
    List (TaskDefinition × TaskResult) → List String → List String →
    ManagerState → List String × List String × ManagerState
  | [], completed, failed, st => (completed, failed, st)
  | (t, r) :: rest, completed, failed, st =>
    let st := { st with results := st.results.insert t.id r }
    if r.success then
      foldResults rest (addIfAbsent t.id completed) failed st
    else
      let st :=
        if t.priority.val = 3 then
          { st with metrics :=
            { st.metrics with
              critical_failures := st.metrics.critical_failures + 1 } }
        else st
      foldResults rest completed (addIfAbsent t.id failed) st

inductive LoopResult
  | finished (st : ManagerState)
  | deadlock (st : ManagerState) (pending : List String)
  | outOfFuel (st : ManagerState)
  deriving DecidableEq, Repr

/-- The `while len(completed) + len(failed) < len(tasks)` loop of
`execute_tasks`, with fuel: the source has no such bound and can loop
forever. -/
def runLoop (b : Browser) (g : DependencyGraph)
    (tasks : List TaskDefinition) :
    Nat → List String → List String → ManagerState → LoopResult
  | 0, _, _, st => .outOfFuel st
  | f + 1, completed, failed, st =>
    if completed.length + failed.length < tasks.length then
      let ready := g.get_ready_tasks completed
      if ready = [] then
        .deadlock st
          ((tasks.filter fun t =>
              decide (t.id ∉ completed) && decide (t.id ∉ failed)).map
            fun t => t.id)
      else
        let pairs := ready.map fun t => (t, executor_execute b t)
        let (completed', failed', st') := foldResults pairs completed failed st
        runLoop b g tasks f completed' failed' st'
    else .finished st

/-- `MultiStepTaskManager.execute_tasks`, with a fuel bound on the run
loop and wall-clock time abstracted to the `elapsed_s` argument. -/
def execute_tasks (b : Browser) (fuel : Nat) (elapsed_s : ℚ)
    (mgr : ManagerState) (tasks : List TaskDefinition) :
    ManagerState × ExecOutcome :=
  match buildGraph tasks {} with
  | (_, some e) => (mgr, .depError e)
  | (g, none) =>
    let cycles := g.detect_cycles
    if cycles ≠ [] then (mgr, .cycleError cycles)
    else
      match runLoop b g tasks fuel [] [] mgr with
      | .outOfFuel st => (st, .outOfFuel)
      | .deadlock st pending => (st, .deadlock pending)
      | .finished st =>
        let st := update_metrics tasks elapsed_s st
        (st, .ok st.results)

/-! ### Error recovery (src/agent/error_recovery.py) -/

inductive ErrorType
  | ELEMENT_NOT_FOUND | TIMEOUT | NAVIGATION_FAILED | INVALID_ACTION
  | API_ERROR | BROWSER_ERROR | UNKNOWN
  deriving DecidableEq, Repr

/-- The `.name` string of an `ErrorType`. -/
def ErrorType.nameStr : ErrorType → String
  | .ELEMENT_NOT_FOUND => "ELEMENT_NOT_FOUND"
  | .TIMEOUT => "TIMEOUT"
  | .NAVIGATION_FAILED => "NAVIGATION_FAILED"
  | .INVALID_ACTION => "INVALID_ACTION"
  | .API_ERROR => "API_ERROR"
  | .BROWSER_ERROR => "BROWSER_ERROR"
  | .UNKNOWN => "UNKNOWN"

inductive RecoveryStrategy
  | RETRY_SAME | SCROLL_AND_RETRY | WAIT_AND_RETRY | NAVIGATE_BACK
  | SKIP_ACTION | ABORT_TASK | HUMAN_INTERVENTION
  deriving DecidableEq, Repr

/-- An exception value as seen by the classifier: its concrete Python
class and its `str(...)` message. -/
inductive PyError
  | elementNotFoundError (msg : String)
  | timeoutError (msg : String)
  | navigationError (msg : String)
  | apiError (msg : String)
  | browserError (msg : String)
  | otherError (msg : String)
  deriving DecidableEq, Repr

def PyError.msg : PyError → String
  | .elementNotFoundError m => m
  | .timeoutError m => m
  | .navigationError m => m
  | .apiError m => m
  | .browserError m => m
  | .otherError m => m

def PyError.isElementNotFound : PyError → Bool
  | .elementNotFoundError _ => true
  | _ => false

def PyError.isTimeout : PyError → Bool
  | .timeoutError _ => true
  | _ => false

def PyError.isNavigation : PyError → Bool
  | .navigationError _ => true
  | _ => false

def PyError.isApi : PyError → Bool
  | .apiError _ => true
  | _ => false

def PyError.isBrowser : PyError → Bool
  | .browserError _ => true
  | _ => false

/-- Whether `needle` occurs as a contiguous substring of `hay` (Python
`needle in hay` on strings). -/
def infixIn (needle : List Char) : List Char → Bool
  | [] => needle.isEmpty
  | c :: rest => List.isPrefixOf needle (c :: rest) || infixIn needle rest

/-- Python `str.lower()`, character-wise. -/
def lowerChars (s : String) : List Char :=
  s.toList.map Char.toLower

def strContains (hay : List Char) (needle : String) : Bool :=
  infixIn needle.toList hay

/-- `ErrorRecoveryHandler._classify_error`: the literal cascade of
`isinstance` checks and lower-cased substring checks, in source order. -/
def classify_error (e : PyError) : ErrorType :=
  let error_str := lowerChars e.msg
  if e.isElementNotFound then .ELEMENT_NOT_FOUND
  else if e.isTimeout then .TIMEOUT
  else if strContains error_str "timeout" then .TIMEOUT
  else if e.isNavigation then .NAVIGATION_FAILED
  else if strContains error_str "navigation" ||
      strContains error_str "navigate" then .NAVIGATION_FAILED
  else if e.isApi then .API_ERROR
  else if strContains error_str "api" ||
      strContains error_str "network" then .API_ERROR
  else if e.isBrowser then .BROWSER_ERROR
  else if strContains error_str "browser" ||
      strContains error_str "chromium" then .BROWSER_ERROR
  else .UNKNOWN

/-- `ErrorRecoveryHandler._find_recovery_strategy`. -/
def find_recovery_strategy (max_retries : Nat) (error_type : ErrorType)
    (retry_count : Nat) : RecoveryStrategy :=
  if retry_count ≥ max_retries then .ABORT_TASK
  else
    match error_type with
    | .ELEMENT_NOT_FOUND =>
      if retry_count = 0 then .SCROLL_AND_RETRY
      else if retry_count = 1 then .WAIT_AND_RETRY
      else .SKIP_ACTION
    | .TIMEOUT => if retry_count < 2 then .WAIT_AND_RETRY else .SKIP_ACTION
    | .API_ERROR => .WAIT_AND_RETRY
    | .NAVIGATION_FAILED => .NAVIGATE_BACK
    | .BROWSER_ERROR => .RETRY_SAME
    | .INVALID_ACTION => .SKIP_ACTION
    | .UNKNOWN => .RETRY_SAME

structure RecoveryAction where
  strategy : RecoveryStrategy
  can_recover : Bool
  retry_count : Nat := 0
  reason : String := ""
  deriving DecidableEq, Repr

structure ErrorMetrics where
  total_errors : Nat := 0
  errors_by_type : Dict Nat := []
  recovery_attempts : Nat := 0
  recovery_success_count : Nat := 0
  total_recovery_time_ms : ℚ := 0
  fallback_count : Nat := 0
  failed_recoveries : Nat := 0
  deriving DecidableEq, Repr

def ErrorMetrics.record_error (m : ErrorMetrics) (error_type : ErrorType)
    (strategy : RecoveryStrategy) : ErrorMetrics :=
  let m := { m with
    total_errors := m.total_errors + 1
    errors_by_type :=
      m.errors_by_type.insert error_type.nameStr
        (m.errors_by_type.getD error_type.nameStr 0 + 1) }
  if strategy ≠ .ABORT_TASK then
    { m with recovery_attempts := m.recovery_attempts + 1 }
  else m

def ErrorMetrics.record_recovery_success (m : ErrorMetrics)
    (recovery_time_ms : ℚ) : ErrorMetrics :=
  { m with
    recovery_success_count := m.recovery_success_count + 1
    total_recovery_time_ms := m.total_recovery_time_ms + recovery_time_ms }

def ErrorMetrics.record_recovery_failure (m : ErrorMetrics) : ErrorMetrics :=
  { m with failed_recoveries := m.failed_recoveries + 1 }

/-- `ErrorRecoveryHandler.handle_error`, with the execution of the chosen
recovery strategy (browser side effects and sleeps) abstracted as
`recExec`, and recovery wall-clock time abstracted to `0`.  The literal
"Max retries exceeded" branch of the source is mirrored even though the
strategy lookup already returns abort at the maximum. -/
def handle_error (recExec : RecoveryStrategy → Except String Unit)
    (max_retries : Nat) (error : PyError) (retry_count : Nat)
    (m : ErrorMetrics) : RecoveryAction × ErrorMetrics :=
  let error_type := classify_error error
  let strategy := find_recovery_strategy max_retries error_type retry_count
  if strategy = .ABORT_TASK then
    (⟨.ABORT_TASK, false, retry_count, "Unrecoverable error type"⟩,
      (m.record_error error_type .ABORT_TASK).record_recovery_failure)
  else if retry_count ≥ max_retries then
    (⟨.ABORT_TASK, false, retry_count, "Max retries exceeded"⟩,
      (m.record_error error_type .ABORT_TASK).record_recovery_failure)
  else
    match recExec strategy with
    | .error e =>
      (⟨.ABORT_TASK, false, retry_count, "Recovery execution failed: " ++ e⟩,
        m.record_recovery_failure)
    | .ok _ =>
      (⟨strategy, true, retry_count + 1, "Recovery executed successfully"⟩,
        (m.record_error error_type strategy).record_recovery_success 0)

/-! ### Retry backoff (src/agent/error_recovery.py, RetryStrategy) -/

structure RetryStrategy where
  initial_delay : ℚ := 1 / 10
  max_delay : ℚ := 30
  exponential_base : ℚ := 2
  jitter : Bool := true

/-- `RetryStrategy.get_wait_time`; the value drawn from
`random.uniform(-jitter_amount, jitter_amount)` is supplied as the
`jitterSample` oracle argument (only read when jitter is enabled). -/
def get_wait_time (s : RetryStrategy) (retry_count : Nat)
    (jitterSample : ℚ) : ℚ :=
  let wait_time := s.initial_delay * s.exponential_base ^ retry_count
  let wait_time := min wait_time s.max_delay
  let wait_time := if s.jitter then wait_time + jitterSample else wait_time
  max 0 wait_time

/-! ### Specification-side notions -/

namespace DependencyGraph

/-- A directed edge of the dependency graph: `v` is listed among the
dependents of `u` (the graph direction `upstream → downstream`). -/
def Edge (g : DependencyGraph) (u v : String) : Prop :=
  v ∈ g.adjOf u

/-- The graph contains a directed cycle: a nonempty edge walk from some
node back to itself. -/
def HasCycle (g : DependencyGraph) : Prop :=
  ∃ n l, List.Chain (Edge g) n (l ++ [n])

/-- A recorded cycle path: a list `x :: l ++ [x]` that walks edges and
closes on its first node. -/
def ClosedWalk (g : DependencyGraph) (c : List String) : Prop :=
  ∃ x l, c = x :: (l ++ [x]) ∧ List.Chain (Edge g) x (l ++ [x])

/-- Well-formedness that `add_task` maintains: registered ids are unique
and every adjacency row is keyed by a registered id and points at
registered ids. -/
def WFGraph (g : DependencyGraph) : Prop :=
  g.tasks.keys.Nodup ∧
    ∀ e ∈ g.graph, e.1 ∈ g.tasks.keys ∧ ∀ v ∈ e.2, v ∈ g.tasks.keys

/-- Count of registered ids not yet visited; bounds the remaining DFS
recursion depth. -/
def countUn (g : DependencyGraph) (visited : List String) : Nat :=
  (g.tasks.keys.filter fun k => decide (k ∉ visited)).length

/-- Closure clause of a finished-order invariant: every successor of a
listed node is listed. -/
def SuccClosed (g : DependencyGraph) (o : List String) : Prop :=
  ∀ x ∈ o, ∀ y, Edge g x y → y ∈ o

/-- Ordering clause of a finished-order invariant: no edge points from an
earlier listed node to a later one (successors are finished earlier). -/
def NoFwdEdge (g : DependencyGraph) (o : List String) : Prop :=
  o.Pairwise fun a b => ¬ Edge g a b

/-- The specification each fuel level of the cycle-detection `dfs`
satisfies: called on an unvisited registered node with the ancestor path
as ghost data and a ghost finished order `o`, it restores the recursion
stack, only appends to the cycle list, records only genuine closed walks,
and extends the finished order with fresh nodes, preserving the
topological invariants as long as no cycle has been recorded. -/
def DetectDfsOk (g : DependencyGraph) (fuel : Nat)
    (dfs : String → List String → DetectState → DetectState) : Prop :=
  ∀ (node : String) (path : List String) (st : DetectState)
    (o : List String),
    countUn g st.visited < fuel →
    node ∈ g.tasks.keys →
    node ∉ st.visited →
    List.Chain' (Edge g) (path ++ [node]) →
    (∀ x, x ∈ st.rec_stack ↔ x ∈ path) →
    (∀ x, x ∈ st.visited ↔ x ∈ o ∨ x ∈ path) →
    o.Nodup →
    (st.cycles = [] →
      SuccClosed g o ∧ NoFwdEdge g o ∧ ∀ x ∈ o, ¬ Edge g x x) →
    ∃ Δ,
      (∀ x, x ∈ (dfs node path st).visited ↔ x ∈ o ++ Δ ∨ x ∈ path) ∧
      node ∈ Δ ∧
      (∀ y ∈ Δ, y ∉ st.visited) ∧
      (o ++ Δ).Nodup ∧
      (dfs node path st).rec_stack = st.rec_stack ∧
      (∃ cs, (dfs node path st).cycles = st.cycles ++ cs) ∧
      (∀ c ∈ (dfs node path st).cycles,
        c ∈ st.cycles ∨ ClosedWalk g c) ∧
      ((dfs node path st).cycles = [] →
        SuccClosed g (o ++ Δ) ∧ NoFwdEdge g (o ++ Δ) ∧
          ∀ x ∈ o ++ Δ, ¬ Edge g x x)

/-- The specification each fuel level of the execution-order `dfs`
satisfies on an acyclic well-formed graph: it appends the newly finished
nodes (the current one included) to the postorder list, keeping it
duplicate-free, successor-closed and free of forward edges. -/
def OrderDfsOk (g : DependencyGraph) (fuel : Nat)
    (dfs : String → OrderState → OrderState) : Prop :=
  ∀ (node : String) (path : List String) (st : OrderState),
    countUn g st.visited < fuel →
    node ∈ g.tasks.keys →
    node ∉ st.visited →
    List.Chain' (Edge g) (path ++ [node]) →
    (∀ x, x ∈ st.visited ↔ x ∈ st.order ∨ x ∈ path) →
    st.order.Nodup →
    (∀ x ∈ st.order, x ∈ g.tasks.keys) →
    SuccClosed g st.order →
    NoFwdEdge g st.order →
    ∃ Δ,
      (dfs node st).order = st.order ++ Δ ∧
      node ∈ Δ ∧
      (∀ y ∈ Δ, y ∉ st.visited) ∧
      (∀ x, x ∈ (dfs node st).visited ↔
        x ∈ (dfs node st).order ∨ x ∈ path) ∧
      (dfs node st).order.Nodup ∧
      (∀ x ∈ (dfs node st).order, x ∈ g.tasks.keys) ∧
      SuccClosed g (dfs node st).order ∧
      NoFwdEdge g (dfs node st).order

end DependencyGraph

/-- The recovery-strategy decision table as the specification states it,
keyed by (kind, current retry count); compared below against
`find_recovery_strategy`. -/
def strategyTable : ErrorType → Nat → RecoveryStrategy
  | .ELEMENT_NOT_FOUND, 0 => .SCROLL_AND_RETRY
  | .ELEMENT_NOT_FOUND, 1 => .WAIT_AND_RETRY
  | .ELEMENT_NOT_FOUND, _ => .SKIP_ACTION
  | .TIMEOUT, n => if n < 2 then .WAIT_AND_RETRY else .SKIP_ACTION
  | .API_ERROR, _ => .WAIT_AND_RETRY
  | .NAVIGATION_FAILED, _ => .NAVIGATE_BACK
  | .BROWSER_ERROR, _ => .RETRY_SAME
  | .INVALID_ACTION, _ => .SKIP_ACTION
  | .UNKNOWN, _ => .RETRY_SAME

/-! ### Concrete fixtures used by examples and witnesses -/

/-- A collaborator whose every operation succeeds. -/
def okBrowser : Browser :=
  { navigate := fun _ => .ok ()
    fill_form := fun _ _ => .ok ()
    click := fun _ => .ok ()
    extract_data := fun _ => .ok (.pstr "data")
    wait_for := fun _ _ => .ok () }

/-- A collaborator whose `navigate` always raises. -/
def navFailBrowser : Browser :=
  { okBrowser with navigate := fun _ => .error "navigation refused" }

def taskA : TaskDefinition := { id := "A", type := .NAVIGATE }

def taskB : TaskDefinition :=
  { id := "B", type := .NAVIGATE, priority := .CRITICAL }

def taskC : TaskDefinition :=
  { id := "C", type := .NAVIGATE
    dependencies := [⟨"A", .SEQUENTIAL, none⟩] }

/-- A task that declares a dependency on its own id. -/
def taskSelf : TaskDefinition :=
  { id := "S", type := .NAVIGATE, dependencies := [⟨"S", .SEQUENTIAL, none⟩] }

/-- A task whose single declared dependency is never registered. -/
def taskMissingDep : TaskDefinition :=
  { id := "X", type := .NAVIGATE, dependencies := [⟨"B", .SEQUENTIAL, none⟩] }

/-- A hand-built graph state with the edge cycle A→B→C→A. -/
def cycleGraphABC : DependencyGraph :=
  { tasks := [("A", taskA), ("B", taskB), ("C", { taskC with dependencies := [] })]
    graph := [("A", ["B"]), ("B", ["C"]), ("C", ["A"])]
    reverse_graph := [("A", ["C"]), ("B", ["A"]), ("C", ["B"])] }

def demoT1 : TaskDefinition := { id := "t1", type := .NAVIGATE }
def demoT2 : TaskDefinition := { id := "t2", type := .NAVIGATE }
def demoT3 : TaskDefinition := { id := "t3", type := .NAVIGATE }

/-- The result the executor produces for `demoT1` under `okBrowser`. -/
def demoT1Success : TaskResult :=
  { task_id := "t1", status := .SUCCESS, success := true
    result := some (.navigatedTo none) }

/-- The manager state after the orchestrator's first iteration on
`[taskA, taskC]` with a failing `navigate`: A's failure result is stored
and nothing else changes. -/
def failLoopState : ManagerState :=
  { results := [("A", executor_execute navFailBrowser taskA)] }

/-- The manager state carried by a loop result. -/
def LoopResult.st : LoopResult → ManagerState
  | .finished st => st
  | .deadlock st _ => st
  | .outOfFuel st => st

/-- The ids under which the orchestrator loop can store results: the ids
of the tasks registered in the graph it schedules from. -/
def DependencyGraph.valIds (g : DependencyGraph) : List String :=
  g.tasks.values.map fun t => t.id

/-- The graph `execute_tasks` builds from the single self-dependent task:
it carries the self-loop edge S→S. -/
def gSelf : DependencyGraph := (buildGraph [taskSelf] {}).1

/-- The graph built from the two-task chain A, C (C depends on A). -/
def gChainAC : DependencyGraph := (buildGraph [taskA, taskC] {}).1

/-- A rank function witnessing that the chain graph A→C is acyclic: every
edge strictly increases it. -/
def chainRank (s : String) : Nat := if s = "A" then 0 else 1

end BrowserAgent

/-! ## Theorems -/

namespace BrowserAgent

namespace Dict

theorem get?_mem {α : Type} {d : Dict α} {k : String} {v : α}
    (h : d.get? k = some v) : (k, v) ∈ d := by
  induction d with
  | nil => simp [get?] at h
  | cons e rest ih =>
    obtain ⟨k', v'⟩ := e
    by_cases hk : k' = k
    · subst hk
      simp [get?] at h
      simp [h]
    · simp [get?, hk] at h
      exact List.mem_cons_of_mem _ (ih h)

theorem keys_insert {α : Type} (d : Dict α) (k : String) (v : α) :
    ∀ x, x ∈ (d.insert k v).keys ↔ x ∈ d.keys ∨ x = k := by
  intro x
  induction d with
  | nil => simp [insert, keys]
  | cons e rest ih =>
    obtain ⟨k', v'⟩ := e
    by_cases hk : k' = k
    · subst hk
      simp [insert, keys]
      tauto
    · simp [insert, hk, keys] at ih ⊢
      tauto

theorem get?_insert_self {α : Type} (d : Dict α) (k : String) (v : α) :
    (d.insert k v).get? k = some v := by
  induction d with
  | nil => simp [insert, get?]
  | cons e rest ih =>
    obtain ⟨k', v'⟩ := e
    by_cases hk : k' = k
    · subst hk; simp [insert, get?]
    · simp [insert, hk, get?, ih]

theorem get?_insert_ne {α : Type} (d : Dict α) (k k' : String) (v : α)
    (h : k ≠ k') : (d.insert k v).get? k' = d.get? k' := by
  induction d with
  | nil => simp [insert, get?, h]
  | cons e rest ih =>
    obtain ⟨k₀, v₀⟩ := e
    by_cases hk : k₀ = k
    · subst hk; simp [insert, get?, h]
    · simp [insert, hk, get?, ih]

theorem keys_insert_nodup {α : Type} (d : Dict α) (k : String) (v : α)
    (h : d.keys.Nodup) : (d.insert k v).keys.Nodup := by
  induction d with
  | nil => simp [insert, keys]
  | cons e rest ih =>
    obtain ⟨k', v'⟩ := e
    rw [keys, List.map_cons, List.nodup_cons] at h
    by_cases hk : k' = k
    · subst hk
      show (Dict.keys (if k' = k' then (k', v) :: rest else _)).Nodup
      rw [if_pos rfl, keys, List.map_cons, List.nodup_cons]
      exact h
    · show (Dict.keys (if k' = k then _ else (k', v') :: insert rest k v)).Nodup
      rw [if_neg hk, keys, List.map_cons, List.nodup_cons]
      constructor
      · intro hx
        rcases (keys_insert rest k v k').mp hx with hx' | hx'
        · exact h.1 hx'
        · exact hk hx'
      · exact ih h.2

end Dict

theorem Dict.getD_insert_self {α : Type} (d : Dict α) (k : String) (v dflt : α) :
    (d.insert k v).getD k dflt = v := by
  simp [Dict.getD, Dict.get?_insert_self]

theorem Dict.getD_insert_ne {α : Type} (d : Dict α) (k k' : String)
    (v dflt : α) (h : k ≠ k') :
    (d.insert k v).getD k' dflt = d.getD k' dflt := by
  simp [Dict.getD, Dict.get?_insert_ne _ _ _ _ h]

theorem Dict.hasKey_insert {α : Type} (d : Dict α) (k k' : String) (v : α) :
    (d.insert k v).hasKey k' = (if k = k' then true else d.hasKey k') := by
  by_cases h : k = k'
  · subst h; simp [Dict.hasKey, Dict.get?_insert_self]
  · simp [Dict.hasKey, Dict.get?_insert_ne _ _ _ _ h, h]

namespace DependencyGraph

theorem addDeps_tasks (t : TaskDefinition) :
    ∀ (deps : List TaskDependency) (g : DependencyGraph),
      ((addDeps t deps g).1).tasks = g.tasks := by
  intro deps
  induction deps with
  | nil => intro g; rfl
  | cons d rest ih =>
    intro g
    by_cases h : g.tasks.hasKey d.task_id
    · simp only [addDeps, h, if_true]
      rw [ih]
    · simp [addDeps, h]

theorem addDeps_adj_mono (t : TaskDefinition) :
    ∀ (deps : List TaskDependency) (g : DependencyGraph) (k y : String),
      y ∈ g.adjOf k → y ∈ ((addDeps t deps g).1).adjOf k := by
  intro deps
  induction deps with
  | nil => intro g k y hy; exact hy
  | cons d rest ih =>
    intro g k y hy
    by_cases h : g.tasks.hasKey d.task_id
    · simp only [addDeps, h, if_true]
      apply ih
      by_cases hk : d.task_id = k
      · subst hk
        show y ∈ Dict.getD (g.graph.insert d.task_id
          (g.adjOf d.task_id ++ [t.id])) d.task_id []
        rw [Dict.getD_insert_self]
        exact List.mem_append_left _ hy
      · show y ∈ Dict.getD (g.graph.insert d.task_id
          (g.adjOf d.task_id ++ [t.id])) k []
        rw [Dict.getD_insert_ne _ _ _ _ _ hk]
        exact hy
    · simpa [addDeps, h] using hy

theorem addDeps_fail (t : TaskDefinition) :
    ∀ (pre : List TaskDependency) (d : TaskDependency)
      (rest : List TaskDependency) (g : DependencyGraph),
      (∀ x ∈ pre, g.tasks.hasKey x.task_id) →
      ¬ g.tasks.hasKey d.task_id →
      (addDeps t (pre ++ d :: rest) g).2 =
          some ("Dependency task " ++ d.task_id ++ " not found") ∧
        ∀ x ∈ pre, t.id ∈ ((addDeps t (pre ++ d :: rest) g).1).adjOf
          x.task_id := by
  intro pre
  induction pre with
  | nil =>
    intro d rest g _ hd
    refine ⟨?_, by simp⟩
    simp [addDeps, hd]
  | cons x pre' ih =>
    intro d rest g hpre hd
    have hx : g.tasks.hasKey x.task_id = true := hpre x (by simp)
    simp only [List.cons_append, addDeps, hx, if_true]
    set g' : DependencyGraph :=
      { g with
        graph := g.graph.insert x.task_id (g.adjOf x.task_id ++ [t.id])
        reverse_graph :=
          g.reverse_graph.insert t.id (g.revAdjOf t.id ++ [x.task_id]) }
      with hg'
    have htasks : g'.tasks = g.tasks := rfl
    have hih := ih d rest g' (fun z hz => by rw [htasks]; exact hpre z (by simp [hz]))
      (by rw [htasks]; exact hd)
    refine ⟨hih.1, ?_⟩
    intro z hz
    rcases List.mem_cons.mp hz with hz | hz
    · subst hz
      apply addDeps_adj_mono
      show t.id ∈ Dict.getD (g.graph.insert z.task_id
        (g.adjOf z.task_id ++ [t.id])) z.task_id []
      rw [Dict.getD_insert_self]
      simp
    · exact hih.2 z hz

theorem addDeps_ok (t : TaskDefinition) :
    ∀ (deps : List TaskDependency) (g : DependencyGraph),
      (∀ x ∈ deps, g.tasks.hasKey x.task_id) →
      (addDeps t deps g).2 = none := by
  intro deps
  induction deps with
  | nil => intro g _; rfl
  | cons d rest ih =>
    intro g h
    have hd : g.tasks.hasKey d.task_id = true := h d (by simp)
    simp only [addDeps, hd, if_true]
    exact ih _ fun z hz => h z (by simp [hz])

theorem addDeps_self_edge (t : TaskDefinition) :
    ∀ (deps : List TaskDependency) (g : DependencyGraph),
      (∀ x ∈ deps, g.tasks.hasKey x.task_id) →
      (∃ x ∈ deps, x.task_id = t.id) →
      t.id ∈ ((addDeps t deps g).1).adjOf t.id := by
  intro deps
  induction deps with
  | nil => intro g _ h; simp at h
  | cons d rest ih =>
    intro g hall hex
    have hd : g.tasks.hasKey d.task_id = true := hall d (by simp)
    simp only [addDeps, hd, if_true]
    rcases hex with ⟨x, hx, hxid⟩
    rcases List.mem_cons.mp hx with hx' | hx'
    · subst hx'
      apply addDeps_adj_mono
      show t.id ∈ Dict.getD (g.graph.insert x.task_id
        (g.adjOf x.task_id ++ [t.id])) t.id []
      rw [hxid, Dict.getD_insert_self]
      simp
    · exact ih _ (fun z hz => hall z (by simp [hz])) ⟨x, hx', hxid⟩

end DependencyGraph

/-! ### C1: error classification precedence -/

/-- C1 counterexample: the claim says an error whose concrete type is one
of the taxonomy's failure types classifies by that type regardless of
message substrings; but a `NavigationError` whose message contains
"timeout" classifies as `TIMEOUT`, because the "timeout" substring check
runs before the `NavigationError` isinstance check. -/
theorem classify_error_claim_counterexample :
    classify_error (.navigationError "timeout while loading") ≠
      ErrorType.NAVIGATION_FAILED ∧
    classify_error (.navigationError "timeout while loading") =
      ErrorType.TIMEOUT := by
  constructor
  · decide
  · decide

/-- C1 (amended): the isinstance checks and the substring checks are
interleaved in one fixed cascade, so a concrete type wins only over the
substring checks at or after its own position: element-not-found and
timeout concrete types always classify by type (in particular a concrete
timeout error whose message contains "navigation" classifies as timeout);
a navigation-typed error is preempted by a "timeout" substring; an
api-typed error additionally by "navigation"/"navigate"; a browser-typed
error additionally by "api"/"network"; with no concrete match the
lower-cased substring chain alone decides. -/
theorem classify_error_precedence_amended (msg : String) :
    classify_error (.elementNotFoundError msg) = .ELEMENT_NOT_FOUND ∧
    classify_error (.timeoutError msg) = .TIMEOUT ∧
    classify_error (.navigationError msg) =
      (if strContains (lowerChars msg) "timeout" then .TIMEOUT
       else .NAVIGATION_FAILED) ∧
    classify_error (.apiError msg) =
      (if strContains (lowerChars msg) "timeout" then .TIMEOUT
       else if strContains (lowerChars msg) "navigation" ||
           strContains (lowerChars msg) "navigate" then .NAVIGATION_FAILED
       else .API_ERROR) ∧
    classify_error (.browserError msg) =
      (if strContains (lowerChars msg) "timeout" then .TIMEOUT
       else if strContains (lowerChars msg) "navigation" ||
           strContains (lowerChars msg) "navigate" then .NAVIGATION_FAILED
       else if strContains (lowerChars msg) "api" ||
           strContains (lowerChars msg) "network" then .API_ERROR
       else .BROWSER_ERROR) ∧
    classify_error (.otherError msg) =
      (if strContains (lowerChars msg) "timeout" then .TIMEOUT
       else if strContains (lowerChars msg) "navigation" ||
           strContains (lowerChars msg) "navigate" then .NAVIGATION_FAILED
       else if strContains (lowerChars msg) "api" ||
           strContains (lowerChars msg) "network" then .API_ERROR
       else if strContains (lowerChars msg) "browser" ||
           strContains (lowerChars msg) "chromium" then .BROWSER_ERROR
       else .UNKNOWN) := by
  refine ⟨rfl, rfl, ?_, ?_, ?_, ?_⟩ <;>
    simp only [classify_error, PyError.msg, PyError.isElementNotFound,
      PyError.isTimeout, PyError.isNavigation, PyError.isApi,
      PyError.isBrowser, Bool.false_eq_true, if_false, if_true] <;>
    split <;> simp

/-! ### C4: the task executor never lets an exception escape -/

/-- C4: for every collaborator behavior, `execute` returns a plain
`TaskResult`: a successful dispatch yields `success=true` with the
collaborator's payload, any raised failure yields `success=false`,
`status=FAILED` carrying the error's message, and a task type outside the
five dispatched tags is converted to a failure result with an explicit
unknown-task-type message rather than a crash. -/
theorem executor_execute_never_raises (b : Browser) (t : TaskDefinition) :
    (∀ p, executeTask b t = .ok p →
      executor_execute b t =
        { task_id := t.id, status := .SUCCESS, success := true
          result := some p }) ∧
    (∀ e, executeTask b t = .error e →
      executor_execute b t =
        { task_id := t.id, status := .FAILED, success := false
          error := some e }) ∧
    (t.type ≠ .NAVIGATE → t.type ≠ .FILL_FORM → t.type ≠ .CLICK_ELEMENT →
      t.type ≠ .EXTRACT_DATA → t.type ≠ .WAIT_FOR_CONDITION →
      executor_execute b t =
        { task_id := t.id, status := .FAILED, success := false
          error := some ("Unknown task type: " ++ t.type.val) }) := by
  refine ⟨fun p h => ?_, fun e h => ?_, fun h1 h2 h3 h4 h5 => ?_⟩
  · simp [executor_execute, h]
  · simp [executor_execute, h]
  · have h : executeTask b t = .error ("Unknown task type: " ++ t.type.val) := by
      cases ht : t.type <;> simp_all [executeTask]
    simp [executor_execute, h]

/-- C4 witness: a concrete task with the structural `CONDITIONAL_BRANCH`
tag yields the unknown-task-type failure result. -/
theorem executor_execute_never_raises_witness :
    executor_execute okBrowser { id := "X", type := .CONDITIONAL_BRANCH } =
      { task_id := "X", status := .FAILED, success := false
        error := some "Unknown task type: conditional_branch" } := by
  exact (executor_execute_never_raises okBrowser
      { id := "X", type := .CONDITIONAL_BRANCH }).2.2
    (by decide) (by decide) (by decide) (by decide) (by decide)

/-! ### C5: retry policy of `handle_error` -/

/-- C5: at `retry_count ≥ max_retries` the outcome is unconditionally an
abort with `can_recover=false` and the retry count unchanged, for every
error kind (the strategy lookup returns abort before the decision table
is consulted); below the maximum the chosen strategy follows exactly the
specification's decision table; and any recoverable outcome returns the
incoming retry count plus one. -/
theorem handle_error_retry_policy
    (recExec : RecoveryStrategy → Except String Unit) (max_retries : Nat)
    (error : PyError) (retry_count : Nat) (m : ErrorMetrics) :
    (retry_count ≥ max_retries →
      (handle_error recExec max_retries error retry_count m).1.strategy =
          .ABORT_TASK ∧
        (handle_error recExec max_retries error retry_count m).1.can_recover =
          false ∧
        (handle_error recExec max_retries error retry_count m).1.retry_count =
          retry_count) ∧
    (∀ et : ErrorType, retry_count < max_retries →
      find_recovery_strategy max_retries et retry_count =
        strategyTable et retry_count) ∧
    ((handle_error recExec max_retries error retry_count m).1.can_recover =
        true →
      (handle_error recExec max_retries error retry_count m).1.retry_count =
        retry_count + 1) := by
  refine ⟨fun hge => ?_, fun et hlt => ?_, fun hrec => ?_⟩
  · have habort :
        find_recovery_strategy max_retries (classify_error error)
          retry_count = .ABORT_TASK := by
      simp [find_recovery_strategy, hge]
    simp [handle_error, habort]
  · have hnot : ¬ retry_count ≥ max_retries := Nat.not_le.mpr hlt
    cases et <;>
      simp [find_recovery_strategy, strategyTable, hnot] <;>
      rcases retry_count with _ | _ | n <;> simp [strategyTable]
  · by_cases h1 : find_recovery_strategy max_retries (classify_error error)
        retry_count = .ABORT_TASK
    · simp [handle_error, h1] at hrec
    · by_cases h2 : retry_count ≥ max_retries
      · simp [handle_error, h1, h2] at hrec
      · rcases hx : recExec (find_recovery_strategy max_retries
            (classify_error error) retry_count) with e | u
        · simp [handle_error, h1, h2, hx] at hrec
        · simp [handle_error, h1, h2, hx]

/-- C5 witness: with the maximum reached (`retry_count = max_retries = 3`)
the result aborts with the count unchanged, and one step below the
maximum a timeout recovers with the count incremented. -/
theorem handle_error_retry_policy_witness :
    (handle_error (fun _ => .ok ()) 3 (.otherError "boom") 3 {}).1.strategy =
        .ABORT_TASK ∧
      (handle_error (fun _ => .ok ()) 3 (.otherError "boom") 3
          {}).1.can_recover = false ∧
      (handle_error (fun _ => .ok ()) 3 (.otherError "boom") 3
          {}).1.retry_count = 3 ∧
      find_recovery_strategy 3 .TIMEOUT 1 = strategyTable .TIMEOUT 1 := by
  refine ⟨?_, ?_, ?_, ?_⟩
  · exact ((handle_error_retry_policy (fun _ => .ok ()) 3 (.otherError "boom")
      3 {}).1 (by decide)).1
  · exact ((handle_error_retry_policy (fun _ => .ok ()) 3 (.otherError "boom")
      3 {}).1 (by decide)).2.1
  · exact ((handle_error_retry_policy (fun _ => .ok ()) 3 (.otherError "boom")
      3 {}).1 (by decide)).2.2
  · exact (handle_error_retry_policy (fun _ => .ok ()) 3 (.otherError "boom")
      1 {}).2.1 .TIMEOUT (by decide)

/-! ### C6: retry backoff formula -/

/-- C6: with jitter disabled the wait equals exactly the clamped
exponential `max 0 (min (initial * base ^ n) max_delay)`, giving
1, 2, 4 and 10 (capped) at retries 0, 1, 2 and 10 for initial=1, base=2,
max=10; with jitter enabled and a sample bounded by ±20% of the clamped
value the result stays within ±20% of it and is never negative. -/
theorem get_wait_time_spec (s : RetryStrategy) (retry_count : Nat)
    (u : ℚ) :
    (s.jitter = false →
      get_wait_time s retry_count u =
        max 0 (min (s.initial_delay * s.exponential_base ^ retry_count)
          s.max_delay)) ∧
    (get_wait_time ⟨1, 10, 2, false⟩ 0 0 = 1 ∧
      get_wait_time ⟨1, 10, 2, false⟩ 1 0 = 2 ∧
      get_wait_time ⟨1, 10, 2, false⟩ 2 0 = 4 ∧
      get_wait_time ⟨1, 10, 2, false⟩ 10 0 = 10) ∧
    (s.jitter = true → 0 ≤ s.initial_delay → 0 ≤ s.exponential_base →
      0 ≤ s.max_delay →
      |u| ≤ 1 / 5 *
        min (s.initial_delay * s.exponential_base ^ retry_count)
          s.max_delay →
      0 ≤ get_wait_time s retry_count u ∧
        |get_wait_time s retry_count u -
            min (s.initial_delay * s.exponential_base ^ retry_count)
              s.max_delay| ≤
          1 / 5 *
            min (s.initial_delay * s.exponential_base ^ retry_count)
              s.max_delay) := by
  refine ⟨fun hj => ?_,
    ⟨by norm_num [get_wait_time, min_def, max_def],
     by norm_num [get_wait_time, min_def, max_def],
     by norm_num [get_wait_time, min_def, max_def],
     by norm_num [get_wait_time, min_def, max_def]⟩,
    fun hj h0 hb hm hu => ?_⟩
  · simp [get_wait_time, hj]
  · set c : ℚ :=
      min (s.initial_delay * s.exponential_base ^ retry_count) s.max_delay
      with hc
    have hc0 : 0 ≤ c := by
      apply le_min _ hm
      exact mul_nonneg h0 (pow_nonneg hb _)
    have hu' := abs_le.mp hu
    have hsum : 0 ≤ c + u := by nlinarith [hu'.1]
    have hval : get_wait_time s retry_count u = c + u := by
      simp only [get_wait_time, hj, if_true, ← hc]
      exact max_eq_right hsum
    constructor
    · rw [hval]; exact hsum
    · rw [hval]
      simpa using hu

/-- C6 witness: the clamped-exponential form instantiated at the spec's
concrete strategy (initial 1, base 2, cap 10, jitter off), at retry
counts 3 and 10. -/
theorem get_wait_time_spec_witness :
    get_wait_time ⟨1, 10, 2, false⟩ 3 0 =
      max 0 (min ((1 : ℚ) * 2 ^ 3) 10) ∧
    get_wait_time ⟨1, 10, 2, false⟩ 10 0 = 10 :=
  ⟨(get_wait_time_spec ⟨1, 10, 2, false⟩ 3 0).1 rfl,
   (get_wait_time_spec ⟨1, 10, 2, false⟩ 10 0).2.1.2.2.2⟩

/-! ### C10: `add_task` is not atomic on failure -/

open DependencyGraph in
/-- C10: when `add_task` raises the missing-dependency error, the new
node is already registered and the edges for the dependencies listed
before the failing one remain in the graph; and a dependency on the
task's own id is accepted without error, creating a self-loop edge (the
node registration precedes the per-dependency validation). -/
theorem add_task_not_atomic (g : DependencyGraph) (t : TaskDefinition)
    (pre : List TaskDependency) (d : TaskDependency)
    (rest : List TaskDependency) :
    (t.dependencies = pre ++ d :: rest →
      (∀ x ∈ pre, x.task_id = t.id ∨ g.tasks.hasKey x.task_id) →
      d.task_id ≠ t.id → ¬ g.tasks.hasKey d.task_id →
      (g.add_task t).2 =
          some ("Dependency task " ++ d.task_id ++ " not found") ∧
        ((g.add_task t).1).tasks.get? t.id = some t ∧
        ∀ x ∈ pre, t.id ∈ ((g.add_task t).1).adjOf x.task_id) ∧
    ((∀ x ∈ t.dependencies, x.task_id = t.id ∨ g.tasks.hasKey x.task_id) →
      (g.add_task t).2 = none ∧
        ((∃ x ∈ t.dependencies, x.task_id = t.id) →
          t.id ∈ ((g.add_task t).1).adjOf t.id)) := by
  set g1 : DependencyGraph :=
    { tasks := g.tasks.insert t.id t
      graph := g.graph.insert t.id []
      reverse_graph := g.reverse_graph.insert t.id [] } with hg1
  have hkey : ∀ x : TaskDependency,
      (x.task_id = t.id ∨ g.tasks.hasKey x.task_id) →
      g1.tasks.hasKey x.task_id = true := by
    intro x hx
    show (g.tasks.insert t.id t).hasKey x.task_id = true
    rw [Dict.hasKey_insert]
    rcases hx with hx | hx
    · simp [hx]
    · by_cases ht : t.id = x.task_id <;> simp [ht, hx]
  constructor
  · intro hdeps hpre hdne hdmiss
    have hdmiss1 : ¬ g1.tasks.hasKey d.task_id := by
      show ¬ (g.tasks.insert t.id t).hasKey d.task_id = true
      rw [Dict.hasKey_insert]
      intro hcon
      rcases ht : decide (t.id = d.task_id) with _ | _
      · simp [of_decide_eq_false ht] at hcon
        exact hdmiss hcon
      · exact hdne (of_decide_eq_true ht).symm
    have hfail := addDeps_fail t pre d rest g1
      (fun x hx => hkey x (hpre x hx)) hdmiss1
    have hunfold : g.add_task t = addDeps t (pre ++ d :: rest) g1 := by
      rw [add_task, hdeps]
    refine ⟨by rw [hunfold]; exact hfail.1, ?_, ?_⟩
    · rw [hunfold, addDeps_tasks]
      exact Dict.get?_insert_self _ _ _
    · intro x hx
      rw [hunfold]
      exact hfail.2 x hx
  · intro hall
    refine ⟨?_, ?_⟩
    · rw [add_task]
      exact addDeps_ok t _ _ fun x hx => hkey x (hall x hx)
    · intro hex
      rw [add_task]
      exact addDeps_self_edge t _ _ (fun x hx => hkey x (hall x hx)) hex

/-- C10 witness: adding a task whose single dependency is an unregistered
id leaves the node registered behind the raised error, and `taskSelf`
(which depends on its own id) is accepted and creates a self-loop that
`detect_cycles` then reports. -/
theorem add_task_not_atomic_witness :
    (DependencyGraph.add_task {} taskMissingDep).2 =
        some "Dependency task B not found" ∧
      ((DependencyGraph.add_task {} taskMissingDep).1).tasks.get? "X" =
        some taskMissingDep ∧
      (DependencyGraph.add_task {} taskSelf).2 = none ∧
      "S" ∈ ((DependencyGraph.add_task {} taskSelf).1).adjOf "S" ∧
      DependencyGraph.detect_cycles
        ((DependencyGraph.add_task {} taskSelf).1) = [["S", "S"]] := by
  have h1 := (add_task_not_atomic {} taskMissingDep []
      ⟨"B", .SEQUENTIAL, none⟩ []).1 rfl (by simp) (by decide) (by decide)
  have h2 := (add_task_not_atomic {} taskSelf [] ⟨"S", .SEQUENTIAL, none⟩
      []).2 (by
        intro x hx
        left
        simp [taskSelf] at hx
        rw [hx]
        rfl)
  exact ⟨h1.1, h1.2.1, h2.1,
    h2.2 ⟨⟨"S", .SEQUENTIAL, none⟩, by simp [taskSelf], rfl⟩, by decide⟩

/-! ### C8: ready-set membership and ordering -/

namespace DependencyGraph

theorem sortInsert_perm (t : TaskDefinition) (l : List TaskDefinition) :
    (sortInsert t l).Perm (t :: l) := by
  induction l with
  | nil => rfl
  | cons u rest ih =>
    by_cases h : t.priority.val < u.priority.val
    · simp only [sortInsert, h, if_true]
      exact (ih.cons u).trans (List.Perm.swap t u rest)
    · simp [sortInsert, h]

theorem sortReady_perm (l : List TaskDefinition) :
    (sortReady l).Perm l := by
  induction l with
  | nil => rfl
  | cons t rest ih =>
    exact (sortInsert_perm t (sortReady rest)).trans (ih.cons t)

theorem sortInsert_pairwise (t : TaskDefinition) (l : List TaskDefinition)
    (h : l.Pairwise fun a b => b.priority.val ≤ a.priority.val) :
    (sortInsert t l).Pairwise fun a b => b.priority.val ≤ a.priority.val := by
  induction l with
  | nil => simp [sortInsert]
  | cons u rest ih =>
    rcases List.pairwise_cons.mp h with ⟨hu, hrest⟩
    by_cases hlt : t.priority.val < u.priority.val
    · simp only [sortInsert, hlt, if_true]
      refine List.pairwise_cons.mpr ⟨?_, ih hrest⟩
      intro z hz
      have hz' : z ∈ t :: rest := (sortInsert_perm t rest).mem_iff.mp hz
      rcases List.mem_cons.mp hz' with hz' | hz'
      · subst hz'; exact Nat.le_of_lt hlt
      · exact hu z hz'
    · simp only [sortInsert, hlt, if_false]
      refine List.pairwise_cons.mpr ⟨?_, h⟩
      intro z hz
      have hle : u.priority.val ≤ t.priority.val := Nat.le_of_not_lt hlt
      rcases List.mem_cons.mp hz with hz' | hz'
      · subst hz'; exact hle
      · exact le_trans (hu z hz') hle

theorem sortReady_pairwise (l : List TaskDefinition) :
    (sortReady l).Pairwise fun a b => b.priority.val ≤ a.priority.val := by
  induction l with
  | nil => simp [sortReady]
  | cons t rest ih => exact sortInsert_pairwise t _ ih

theorem sortInsert_filter (t : TaskDefinition) (l : List TaskDefinition)
    (n : Nat) :
    (sortInsert t l).filter (fun u => u.priority.val == n) =
      (t :: l).filter fun u => u.priority.val == n := by
  induction l with
  | nil => rfl
  | cons u rest ih =>
    by_cases hlt : t.priority.val < u.priority.val
    · simp only [sortInsert, hlt, if_true]
      by_cases hu : u.priority.val = n <;> by_cases ht : t.priority.val = n
      · exfalso; omega
      all_goals simp [List.filter_cons, hu, ht, ih]
    · simp [sortInsert, hlt]

theorem sortReady_filter (l : List TaskDefinition) (n : Nat) :
    (sortReady l).filter (fun u => u.priority.val == n) =
      l.filter fun u => u.priority.val == n := by
  induction l with
  | nil => rfl
  | cons t rest ih =>
    rw [sortReady, sortInsert_filter]
    simp only [List.filter]
    rw [ih]

/-- C8: `get_ready_tasks` returns exactly the registered tasks that are
not completed and whose upstream dependency ids all lie in `completed`;
the result is the registration-order filtered list stably sorted by
descending priority (descending pairwise, equal priorities kept in
registration order); on tasks A (no deps, normal), B (no deps, critical),
C (depends on A), the ready set at ∅ is `[B, A]`. -/
theorem get_ready_tasks_spec (g : DependencyGraph)
    (completed : List String) :
    (∀ t, t ∈ g.get_ready_tasks completed ↔
      ∃ p ∈ g.tasks, p.2 = t ∧ p.1 ∉ completed ∧
        ∀ dep ∈ g.revAdjOf p.1, dep ∈ completed) ∧
    (g.get_ready_tasks completed).Perm (g.readyFilter completed) ∧
    ((g.get_ready_tasks completed).Pairwise fun a b =>
      b.priority.val ≤ a.priority.val) ∧
    (∀ n, (g.get_ready_tasks completed).filter
        (fun u => u.priority.val == n) =
      (g.readyFilter completed).filter fun u => u.priority.val == n) ∧
    (get_ready_tasks (buildGraph [taskA, taskB, taskC] {}).1 []).map
        (fun t => t.id) = ["B", "A"] := by
  refine ⟨?_, sortReady_perm _, sortReady_pairwise _,
    fun n => sortReady_filter _ n, by decide⟩
  intro t
  rw [get_ready_tasks, (sortReady_perm _).mem_iff, readyFilter]
  simp only [List.mem_map, List.mem_filter, Bool.and_eq_true,
    decide_eq_true_eq, List.all_eq_true]
  constructor
  · rintro ⟨p, ⟨hp, hnc, hdeps⟩, hpt⟩
    exact ⟨p, hp, hpt, hnc, hdeps⟩
  · rintro ⟨p, hp, hpt, hnc, hdeps⟩
    exact ⟨p, ⟨hp, hnc, hdeps⟩, hpt⟩

end DependencyGraph

/-! ### C2: a failed upstream never surfaces as deadlock -/

theorem execute_tasks_loop_outcome (b : Browser) (fuel : Nat) (el : ℚ)
    (mgr : ManagerState) (tasks : List TaskDefinition)
    (g : DependencyGraph) (hbuild : buildGraph tasks {} = (g, none))
    (hcyc : g.detect_cycles = []) :
    execute_tasks b fuel el mgr tasks =
      match runLoop b g tasks fuel [] [] mgr with
      | .outOfFuel st => (st, .outOfFuel)
      | .deadlock st pending => (st, .deadlock pending)
      | .finished st =>
        (update_metrics tasks el st, .ok (update_metrics tasks el st).results) := by
  unfold execute_tasks
  rw [hbuild]
  simp [hcyc]

/-- C2 (the code at the failing input): with task A failing on every
attempt and task C depending on A, the run loop never terminates: for
every fuel bound the loop is still running (A stays in the ready frontier
because `get_ready_tasks` filters only by `completed`), so the promised
deadlock error is never raised and C stays pending forever. -/
theorem execute_tasks_failed_upstream_loops (fuel : Nat) :
    (execute_tasks navFailBrowser fuel 0 {} [taskA, taskC]).2 =
      ExecOutcome.outOfFuel := by
  have key : ∀ f,
      runLoop navFailBrowser (buildGraph [taskA, taskC] {}).1
          [taskA, taskC] f [] ["A"] failLoopState =
        LoopResult.outOfFuel failLoopState := by
    intro f
    induction f with
    | zero => rfl
    | succ f ih =>
      have hstep :
          runLoop navFailBrowser (buildGraph [taskA, taskC] {}).1
              [taskA, taskC] (f + 1) [] ["A"] failLoopState =
            runLoop navFailBrowser (buildGraph [taskA, taskC] {}).1
              [taskA, taskC] f [] ["A"] failLoopState := rfl
      rw [hstep, ih]
  have hbuild : buildGraph [taskA, taskC] {} =
      ((buildGraph [taskA, taskC] {}).1, none) := by decide
  have hcyc : ((buildGraph [taskA, taskC] {}).1).detect_cycles = [] := by
    decide
  rw [execute_tasks_loop_outcome navFailBrowser fuel 0 {} [taskA, taskC]
    _ hbuild hcyc]
  cases fuel with
  | zero => rfl
  | succ f =>
    have hstep0 :
        runLoop navFailBrowser (buildGraph [taskA, taskC] {}).1
            [taskA, taskC] (f + 1) [] [] {} =
          runLoop navFailBrowser (buildGraph [taskA, taskC] {}).1
            [taskA, taskC] f [] ["A"] failLoopState := rfl
    rw [hstep0, key f]

/-! ### C9: results and metrics accumulate across runs -/

theorem Dict.mem_insert {α : Type} (d : Dict α) (k : String) (v : α)
    (p : String × α) : p ∈ d.insert k v → p ∈ d ∨ p = (k, v) := by
  induction d with
  | nil =>
    intro h
    simp only [Dict.insert, List.mem_singleton] at h
    right; exact h
  | cons e rest ih =>
    obtain ⟨k', v'⟩ := e
    intro h
    simp only [Dict.insert] at h
    by_cases hk : k' = k
    · rw [if_pos hk] at h
      rcases List.mem_cons.mp h with h | h
      · subst hk; right; exact h
      · left; exact List.mem_cons_of_mem _ h
    · rw [if_neg hk] at h
      rcases List.mem_cons.mp h with h | h
      · left; rw [h]; exact List.mem_cons_self _ _
      · rcases ih h with h' | h'
        · left; exact List.mem_cons_of_mem _ h'
        · right; exact h'

theorem foldResults_spec :
    ∀ (pairs : List (TaskDefinition × TaskResult)) (c fl : List String)
      (st : ManagerState),
      (∀ k, st.results.hasKey k →
        ((foldResults pairs c fl st).2.2).results.hasKey k) ∧
      (∀ k, (∀ p ∈ pairs, k ≠ p.1.id) →
        ((foldResults pairs c fl st).2.2).results.get? k =
          st.results.get? k) ∧
      ((foldResults pairs c fl st).2.2).metrics.tasks_by_status =
        st.metrics.tasks_by_status := by
  intro pairs
  induction pairs with
  | nil => intro c fl st; exact ⟨fun k h => h, fun k _ => rfl, rfl⟩
  | cons p rest ih =>
    intro c fl st
    obtain ⟨t, r⟩ := p
    by_cases hs : r.success
    · simp only [foldResults, hs, if_true]
      refine ⟨fun k hk => ?_, fun k hk => ?_, ?_⟩
      · apply (ih _ _ _).1
        show (st.results.insert t.id r).hasKey k = true
        rw [Dict.hasKey_insert]
        split <;> simp [hk]
      · rw [(ih _ _ _).2.1 k fun q hq => hk q (List.mem_cons_of_mem _ hq)]
        exact Dict.get?_insert_ne _ _ _ _
          fun he => (hk (t, r) (by simp) (he ▸ rfl)).elim
      · exact (ih _ _ _).2.2
    · by_cases hc : t.priority.val = 3
      · simp only [foldResults, hs, Bool.false_eq_true, if_false, hc, if_true]
        refine ⟨fun k hk => ?_, fun k hk => ?_, ?_⟩
        · apply (ih _ _ _).1
          show (st.results.insert t.id r).hasKey k = true
          rw [Dict.hasKey_insert]
          split <;> simp [hk]
        · rw [(ih _ _ _).2.1 k fun q hq => hk q (List.mem_cons_of_mem _ hq)]
          exact Dict.get?_insert_ne _ _ _ _
            fun he => (hk (t, r) (by simp) (he ▸ rfl)).elim
        · exact (ih _ _ _).2.2
      · simp only [foldResults, hs, Bool.false_eq_true, if_false, hc]
        refine ⟨fun k hk => ?_, fun k hk => ?_, ?_⟩
        · apply (ih _ _ _).1
          show (st.results.insert t.id r).hasKey k = true
          rw [Dict.hasKey_insert]
          split <;> simp [hk]
        · rw [(ih _ _ _).2.1 k fun q hq => hk q (List.mem_cons_of_mem _ hq)]
          exact Dict.get?_insert_ne _ _ _ _
            fun he => (hk (t, r) (by simp) (he ▸ rfl)).elim
        · exact (ih _ _ _).2.2

/-- Tasks in the ready frontier are values of the graph's task registry,
so their ids lie in `valIds`. -/
theorem DependencyGraph.mem_ready_valId (g : DependencyGraph)
    (c : List String) (t : TaskDefinition)
    (h : t ∈ g.get_ready_tasks c) : t.id ∈ g.valIds := by
  rw [DependencyGraph.get_ready_tasks,
    (DependencyGraph.sortReady_perm _).mem_iff,
    DependencyGraph.readyFilter] at h
  rcases List.mem_map.mp h with ⟨p, hp, hpt⟩
  exact List.mem_map.mpr ⟨p.2, List.mem_map.mpr ⟨p, List.mem_of_mem_filter hp, rfl⟩,
    by rw [hpt]⟩

theorem runLoop_spec (b : Browser) (g : DependencyGraph)
    (tasks : List TaskDefinition) :
    ∀ (f : Nat) (c fl : List String) (st : ManagerState),
      (∀ k, st.results.hasKey k →
        ((runLoop b g tasks f c fl st).st).results.hasKey k) ∧
      (∀ k, k ∉ g.valIds →
        ((runLoop b g tasks f c fl st).st).results.get? k =
          st.results.get? k) ∧
      ((runLoop b g tasks f c fl st).st).metrics.tasks_by_status =
        st.metrics.tasks_by_status := by
  intro f
  induction f with
  | zero => intro c fl st; exact ⟨fun k h => h, fun k _ => rfl, rfl⟩
  | succ f ih =>
    intro c fl st
    by_cases hlen : c.length + fl.length < tasks.length
    · by_cases hready : g.get_ready_tasks c = []
      · simp only [runLoop, hlen, if_true, hready, if_pos rfl]
        exact ⟨fun k h => h, fun k _ => rfl, rfl⟩
      · have hids : ∀ k, k ∉ g.valIds →
            ∀ p ∈ (g.get_ready_tasks c).map
              (fun t => (t, executor_execute b t)), k ≠ p.1.id := by
          intro k hk p hp
          rcases List.mem_map.mp hp with ⟨t, ht, hpt⟩
          intro he
          apply hk
          rw [he, ← hpt]
          exact g.mem_ready_valId c t ht
        have hfs := foldResults_spec
          ((g.get_ready_tasks c).map fun t => (t, executor_execute b t))
          c fl st
        rcases hf : foldResults
            ((g.get_ready_tasks c).map fun t => (t, executor_execute b t))
            c fl st with ⟨c', fl', st'⟩
        rw [hf] at hfs
        have hrun : runLoop b g tasks (f + 1) c fl st =
            runLoop b g tasks f c' fl' st' := by
          simp only [runLoop, hlen, if_true, if_neg hready, hf]
        rw [hrun]
        refine ⟨fun k hk => ?_, fun k hk => ?_, ?_⟩
        · exact (ih c' fl' st').1 k (hfs.1 k hk)
        · rw [(ih c' fl' st').2.1 k hk, hfs.2.1 k (hids k hk)]
        · rw [(ih c' fl' st').2.2, hfs.2.2]
    · simp only [runLoop, hlen, if_false]
      exact ⟨fun k h => h, fun k _ => rfl, rfl⟩

theorem DependencyGraph.add_task_valIds (g : DependencyGraph)
    (t : TaskDefinition) :
    ∀ x ∈ ((g.add_task t).1).valIds, x ∈ g.valIds ∨ x = t.id := by
  intro x hx
  rw [DependencyGraph.valIds] at hx
  rcases List.mem_map.mp hx with ⟨u, hu, hux⟩
  rcases List.mem_map.mp hu with ⟨p, hp, hpu⟩
  rw [DependencyGraph.add_task, DependencyGraph.addDeps_tasks] at hp
  rcases Dict.mem_insert _ _ _ _ hp with hp' | hp'
  · left
    exact List.mem_map.mpr ⟨u, List.mem_map.mpr ⟨p, hp', hpu⟩, hux⟩
  · right
    rw [← hux, ← hpu, hp']

theorem buildGraph_valIds :
    ∀ (ts : List TaskDefinition) (g0 : DependencyGraph),
      ∀ x ∈ ((buildGraph ts g0).1).valIds,
        x ∈ g0.valIds ∨ x ∈ ts.map fun t => t.id := by
  intro ts
  induction ts with
  | nil => intro g0 x hx; left; exact hx
  | cons t rest ih =>
    intro g0 x hx
    rcases ha : g0.add_task t with ⟨g1, oe⟩
    have hg1 : g1 = (g0.add_task t).1 := by rw [ha]
    cases oe with
    | none =>
      rw [show buildGraph (t :: rest) g0 = buildGraph rest g1 by
        simp [buildGraph, ha]] at hx
      rcases ih g1 x hx with h | h
      · rcases DependencyGraph.add_task_valIds g0 t x (hg1 ▸ h) with h' | h'
        · left; exact h'
        · right; simp [h']
      · right; simp [h]
    | some e =>
      rw [show buildGraph (t :: rest) g0 = (g1, some e) by
        simp [buildGraph, ha]] at hx
      rcases DependencyGraph.add_task_valIds g0 t x (hg1 ▸ hx) with h' | h'
      · left; exact h'
      · right; simp [h']

theorem update_metrics_fields (ts : List TaskDefinition) (el : ℚ)
    (st : ManagerState) :
    (update_metrics ts el st).results = st.results ∧
    (update_metrics ts el st).metrics.total_tasks = ts.length ∧
    (update_metrics ts el st).metrics.completed_tasks =
      (st.results.values.filter fun r => r.success).length ∧
    (update_metrics ts el st).metrics.failed_tasks =
      (st.results.values.filter fun r => !r.success).length ∧
    (0 < ts.length → (update_metrics ts el st).metrics.success_rate =
      ((st.results.values.filter fun r => r.success).length : ℚ) /
        (ts.length : ℚ)) ∧
    (st.results ≠ [] → (update_metrics ts el st).metrics.avg_task_time_ms =
      (st.results.values.map fun r => r.execution_time_ms).sum /
        (st.results.length : ℚ)) ∧
    (update_metrics ts el st).metrics.tasks_by_status =
      countByKeys (st.results.values.map fun r => r.status.val)
        st.metrics.tasks_by_status := by
  obtain ⟨sres, smet⟩ := st
  unfold update_metrics
  refine ⟨rfl, ?_, ?_, ?_, ?_, ?_, ?_⟩
  · dsimp only; split_ifs <;> rfl
  · dsimp only; split_ifs <;> rfl
  · dsimp only; split_ifs <;> rfl
  · intro hlen
    dsimp only
    split_ifs <;> first | rfl | omega
  · intro hne
    dsimp only
    split_ifs <;> first | rfl | omega | simp_all
  · dsimp only; split_ifs <;> rfl

theorem execute_tasks_ok_cases (b : Browser) (fuel : Nat) (el : ℚ)
    (mgr mgr' : ManagerState) (ts : List TaskDefinition)
    (res : Dict TaskResult)
    (h : execute_tasks b fuel el mgr ts = (mgr', ExecOutcome.ok res)) :
    ∃ g stfin, buildGraph ts {} = (g, none) ∧
      runLoop b g ts fuel [] [] mgr = .finished stfin ∧
      mgr' = update_metrics ts el stfin ∧ res = mgr'.results := by
  unfold execute_tasks at h
  rcases hb : buildGraph ts {} with ⟨g, oe⟩
  rw [hb] at h
  cases oe with
  | some e => simp at h
  | none =>
    by_cases hcyc : g.detect_cycles = []
    · simp only [hcyc, ne_eq, not_true_eq_false, if_false] at h
      cases hr : runLoop b g ts fuel [] [] mgr with
      | finished stf =>
        rw [hr] at h
        simp only [Prod.mk.injEq, ExecOutcome.ok.injEq] at h
        exact ⟨g, stf, rfl, hr, h.1.symm, by rw [← h.2, h.1]⟩
      | deadlock std pend =>
        rw [hr] at h; simp at h
      | outOfFuel sto =>
        rw [hr] at h; simp at h
    · simp only [ne_eq, hcyc, not_false_eq_true, if_true] at h
      simp at h

open DependencyGraph in
/-- C9 (amended): the orchestrator never clears its results mapping or
metrics between runs.  On a successful second run every previously stored
id is still a key (its value is replaced only when the same id is
re-submitted), ids outside the submitted list keep their exact results,
`completed_tasks`/`failed_tasks`/`success_rate`/`avg_task_time_ms` are
computed over the accumulated mapping while `total_tasks` counts only the
current call's list — so `success_rate` can exceed 1.0, reaching 3 in the
two-run fixture — and `tasks_by_status` adds the accumulated mapping's
status counts on top of the previous counter values (double-counting
earlier runs) rather than being recomputed from the mapping. -/
theorem execute_tasks_accumulates (b : Browser) (fuel : Nat) (el : ℚ)
    (mgr mgr' : ManagerState) (ts : List TaskDefinition)
    (res : Dict TaskResult)
    (h : execute_tasks b fuel el mgr ts = (mgr', ExecOutcome.ok res)) :
    res = mgr'.results ∧
    (∀ k, mgr.results.hasKey k → mgr'.results.hasKey k) ∧
    (∀ k, (k ∉ ts.map fun t => t.id) →
      mgr'.results.get? k = mgr.results.get? k) ∧
    mgr'.metrics.total_tasks = ts.length ∧
    mgr'.metrics.completed_tasks =
      (mgr'.results.values.filter fun r => r.success).length ∧
    mgr'.metrics.failed_tasks =
      (mgr'.results.values.filter fun r => !r.success).length ∧
    (0 < ts.length → mgr'.metrics.success_rate =
      (mgr'.metrics.completed_tasks : ℚ) / (ts.length : ℚ)) ∧
    (mgr'.results ≠ [] → mgr'.metrics.avg_task_time_ms =
      (mgr'.results.values.map fun r => r.execution_time_ms).sum /
        (mgr'.results.length : ℚ)) ∧
    mgr'.metrics.tasks_by_status =
      countByKeys (mgr'.results.values.map fun r => r.status.val)
        mgr.metrics.tasks_by_status := by
  rcases execute_tasks_ok_cases b fuel el mgr mgr' ts res h with
    ⟨g, stfin, hb, hr, hm, hres⟩
  have hloop := runLoop_spec b g ts fuel [] [] mgr
  rw [hr] at hloop
  have hfields := update_metrics_fields ts el stfin
  have hresults : mgr'.results = stfin.results := by rw [hm, hfields.1]
  have hkeymono : ∀ k, mgr.results.hasKey k → stfin.results.hasKey k :=
    hloop.1
  have huntouched : ∀ k, k ∉ g.valIds →
      stfin.results.get? k = mgr.results.get? k := hloop.2.1
  have hstat : stfin.metrics.tasks_by_status = mgr.metrics.tasks_by_status :=
    hloop.2.2
  refine ⟨hres, ?_, ?_, ?_, ?_, ?_, ?_, ?_, ?_⟩
  · intro k hk
    rw [hresults]
    exact hkeymono k hk
  · intro k hk
    rw [hresults]
    apply huntouched k
    intro hmem
    rcases buildGraph_valIds ts {} k (by rw [hb]; exact hmem) with h' | h'
    · simp [DependencyGraph.valIds, Dict.values] at h'
    · exact hk h'
  · rw [hm]; exact hfields.2.1
  · rw [hm, hfields.1]; exact hfields.2.2.1
  · rw [hm, hfields.1]; exact hfields.2.2.2.1
  · intro hlen
    rw [hm, hfields.2.2.1]
    exact hfields.2.2.2.2.1 hlen
  · intro hne
    rw [hm, hfields.1]
    exact hfields.2.2.2.2.2.1 (by rw [← hresults]; exact hne)
  · rw [hm, hfields.1, hfields.2.2.2.2.2.2, hstat]

/-- C9 witness: after a first run completing t1 and t2 and a second run
completing only t3 on the same manager, t1's key is still present and the
reported success rate is 3 (three accumulated successes over a
single-task run). -/
theorem execute_tasks_accumulates_witness :
    ((execute_tasks okBrowser 2 0
        (execute_tasks okBrowser 3 0 {} [demoT1, demoT2]).1
        [demoT3]).1.results.hasKey "t1" = true) ∧
    (execute_tasks okBrowser 2 0
        (execute_tasks okBrowser 3 0 {} [demoT1, demoT2]).1
        [demoT3]).1.metrics.success_rate = 3 := by
  have h := execute_tasks_accumulates okBrowser 2 0
    (execute_tasks okBrowser 3 0 {} [demoT1, demoT2]).1
    (execute_tasks okBrowser 2 0
      (execute_tasks okBrowser 3 0 {} [demoT1, demoT2]).1 [demoT3]).1
    [demoT3]
    (execute_tasks okBrowser 2 0
      (execute_tasks okBrowser 3 0 {} [demoT1, demoT2]).1 [demoT3]).1.results
    (Prod.ext rfl (by decide))
  refine ⟨h.2.1 "t1" (by decide), ?_⟩
  have hrate := h.2.2.2.2.2.2.1 (by decide)
  have hcomp : (execute_tasks okBrowser 2 0
      (execute_tasks okBrowser 3 0 {} [demoT1, demoT2]).1
      [demoT3]).1.metrics.completed_tasks = 3 := by decide
  rw [hrate, hcomp]
  norm_num

/-- C9 counterexample: after a second run, `tasks_by_status` records 3
"success" entries although the accumulated mapping holds only 2 results
(earlier runs are double-counted), and re-running an id replaces its
earlier `TaskResult`, so the mapping does not keep every earlier result. -/
theorem execute_tasks_accumulation_counterexample :
    (execute_tasks okBrowser 2 0
        (execute_tasks okBrowser 2 0 {} [demoT1]).1
        [demoT2]).1.metrics.tasks_by_status.getD "success" 0 = 3 ∧
    ((execute_tasks okBrowser 2 0
        (execute_tasks okBrowser 2 0 {} [demoT1]).1
        [demoT2]).1.results).length = 2 ∧
    demoT1Success ∈
      ((execute_tasks okBrowser 2 0 {} [demoT1]).1.results).values ∧
    demoT1Success ∉
      ((execute_tasks navFailBrowser 2 0
          (execute_tasks okBrowser 2 0 {} [demoT1]).1
          [demoT1]).1.results).values := by
  refine ⟨by decide, by decide, by decide, by decide⟩

/-! ### Graph helpers for the DFS proofs -/

theorem Dict.hasKey_iff_mem_keys {α : Type} (d : Dict α) (k : String) :
    d.hasKey k = true ↔ k ∈ d.keys := by
  induction d with
  | nil => simp [Dict.hasKey, Dict.get?, Dict.keys]
  | cons e rest ih =>
    obtain ⟨k', v'⟩ := e
    by_cases hk : k' = k
    · subst hk
      simp [Dict.hasKey, Dict.get?, Dict.keys]
    · constructor
      · intro h
        have h' : Dict.hasKey rest k = true := by
          simpa [Dict.hasKey, Dict.get?, if_neg hk] using h
        exact List.mem_cons.mpr (Or.inr (ih.mp h'))
      · intro h
        have h' : k ∈ Dict.keys rest := by
          rcases List.mem_cons.mp h with h | h
          · exact absurd h.symm hk
          · exact h
        simpa [Dict.hasKey, Dict.get?, if_neg hk] using ih.mpr h'

namespace DependencyGraph

theorem adjOf_mem (g : DependencyGraph) {u v : String}
    (h : v ∈ g.adjOf u) : ∃ l, (u, l) ∈ g.graph ∧ v ∈ l := by
  rw [adjOf, Dict.getD] at h
  rcases hg : g.graph.get? u with _ | l
  · rw [hg] at h; simp at h
  · rw [hg] at h
    exact ⟨l, Dict.get?_mem hg, h⟩

theorem edge_mem_keys {g : DependencyGraph} (hwf : WFGraph g)
    {u v : String} (h : Edge g u v) :
    u ∈ g.tasks.keys ∧ v ∈ g.tasks.keys := by
  rcases adjOf_mem g h with ⟨l, hl, hv⟩
  exact ⟨(hwf.2 _ hl).1, (hwf.2 _ hl).2 v hv⟩

end DependencyGraph

theorem filter_length_le {α : Type} (l : List α) (p q : α → Bool)
    (himp : ∀ x, q x = true → p x = true) :
    (l.filter q).length ≤ (l.filter p).length := by
  induction l with
  | nil => simp
  | cons x xs ih =>
    by_cases hq : q x = true
    · simp only [List.filter_cons, hq, himp x hq, if_true, List.length_cons]
      exact Nat.succ_le_succ ih
    · have hq' : q x = false := by simpa using hq
      by_cases hp : p x = true
      · simp only [List.filter_cons, hq', hp, if_true, Bool.false_eq_true,
          if_false, List.length_cons]
        exact Nat.le_succ_of_le ih
      · have hp' : p x = false := by simpa using hp
        simp only [List.filter_cons, hq', hp', Bool.false_eq_true, if_false]
        exact ih

theorem filter_length_lt {α : Type} (l : List α) (p q : α → Bool)
    (himp : ∀ x, q x = true → p x = true) (a : α) (ha : a ∈ l)
    (hpa : p a = true) (hqa : q a = false) :
    (l.filter q).length < (l.filter p).length := by
  induction l with
  | nil => simp at ha
  | cons x xs ih =>
    by_cases hxa : x = a
    · subst hxa
      simp only [List.filter_cons, hpa, hqa, if_true, Bool.false_eq_true,
        if_false, List.length_cons]
      have := filter_length_le xs p q himp
      omega
    · have ha' : a ∈ xs := by
        rcases List.mem_cons.mp ha with h | h
        · exact absurd h.symm hxa
        · exact h
      by_cases hq : q x = true
      · simp only [List.filter_cons, hq, himp x hq, if_true,
          List.length_cons]
        exact Nat.succ_lt_succ (ih ha')
      · have hq' : q x = false := by simpa using hq
        by_cases hp : p x = true
        · simp only [List.filter_cons, hq', hp, if_true, Bool.false_eq_true,
            if_false, List.length_cons]
          have := ih ha'
          omega
        · have hp' : p x = false := by simpa using hp
          simp only [List.filter_cons, hq', hp', Bool.false_eq_true,
            if_false]
          exact ih ha'

namespace DependencyGraph

theorem countUn_le (g : DependencyGraph) {vis vis' : List String}
    (hsub : ∀ x, x ∈ vis → x ∈ vis') :
    countUn g vis' ≤ countUn g vis := by
  apply filter_length_le
  intro x hx
  simp only [decide_eq_true_eq] at hx ⊢
  exact fun hmem => hx (hsub x hmem)

theorem countUn_lt (g : DependencyGraph) {vis vis' : List String}
    {n : String} (hsub : ∀ x, x ∈ vis → x ∈ vis')
    (hn : n ∈ g.tasks.keys) (hnv : n ∉ vis) (hnv' : n ∈ vis') :
    countUn g vis' < countUn g vis := by
  refine filter_length_lt _ _ _ ?_ n hn ?_ ?_
  · intro x hx
    simp only [decide_eq_true_eq] at hx ⊢
    exact fun hmem => hx (hsub x hmem)
  · simpa using hnv
  · simpa using hnv'

/-- A nodup list that is successor-closed, has no forward edges, no
self-loops and contains every edge source admits no directed cycle. -/
theorem no_cycle_of_topo (g : DependencyGraph) (o : List String)
    (hN : o.Nodup) (hT1 : SuccClosed g o) (hT2 : NoFwdEdge g o)
    (hT3 : ∀ x ∈ o, ¬ Edge g x x)
    (hsrc : ∀ u v, Edge g u v → u ∈ o) : ¬ HasCycle g := by
  have hdec : ∀ u v, Edge g u v → o.indexOf v < o.indexOf u := by
    intro u v he
    have hu : u ∈ o := hsrc u v he
    have hv : v ∈ o := hT1 u hu v he
    have hne : u ≠ v := fun h => hT3 u hu (h ▸ he)
    have hiu : o.indexOf u < o.length := List.indexOf_lt_length.mpr hu
    have hiv : o.indexOf v < o.length := List.indexOf_lt_length.mpr hv
    have hgu : o[o.indexOf u] = u := List.getElem_indexOf hiu
    have hgv : o[o.indexOf v] = v := List.getElem_indexOf hiv
    have hne' : o.indexOf u ≠ o.indexOf v := by
      intro hc
      apply hne
      rw [← hgu, ← hgv]
      congr 1
    rcases Nat.lt_or_ge (o.indexOf v) (o.indexOf u) with h | h
    · exact h
    · exfalso
      have hlt : o.indexOf u < o.indexOf v := Nat.lt_of_le_of_ne h hne'
      have := (List.pairwise_iff_getElem.mp hT2) _ _ hiu hiv hlt
      rw [hgu, hgv] at this
      exact this he
  have haux : ∀ (l : List String) (a b : String),
      List.Chain (Edge g) a (l ++ [b]) → o.indexOf b < o.indexOf a := by
    intro l
    induction l with
    | nil =>
      intro a b h
      rcases List.chain_cons.mp h with ⟨he, _⟩
      exact hdec a b he
    | cons x xs ih =>
      intro a b h
      rcases List.chain_cons.mp h with ⟨he, h'⟩
      exact Nat.lt_trans (ih x b h') (hdec a x he)
  rintro ⟨n, l, hchain⟩
  exact absurd (haux l n n hchain) (Nat.lt_irrefl _)

/-- A strictly edge-increasing measure rules out cycles (used to
discharge acyclicity at concrete graphs). -/
theorem no_cycle_of_rank (g : DependencyGraph) (f : String → Nat)
    (hf : ∀ u v, Edge g u v → f u < f v) : ¬ HasCycle g := by
  have haux : ∀ (l : List String) (a b : String),
      List.Chain (Edge g) a (l ++ [b]) → f a < f b := by
    intro l
    induction l with
    | nil =>
      intro a b h
      rcases List.chain_cons.mp h with ⟨he, _⟩
      exact hf a b he
    | cons x xs ih =>
      intro a b h
      rcases List.chain_cons.mp h with ⟨he, h'⟩
      exact Nat.lt_trans (hf a x he) (ih x b h')
  rintro ⟨n, l, hchain⟩
  exact absurd (haux l n n hchain) (Nat.lt_irrefl _)

theorem addDeps_WF (t : TaskDefinition) :
    ∀ (deps : List TaskDependency) (g : DependencyGraph),
      WFGraph g → t.id ∈ g.tasks.keys →
      WFGraph ((addDeps t deps g).1) := by
  intro deps
  induction deps with
  | nil => intro g hwf _; exact hwf
  | cons d rest ih =>
    intro g hwf hid
    by_cases h : g.tasks.hasKey d.task_id
    · simp only [addDeps, h, if_true]
      apply ih
      · refine ⟨hwf.1, ?_⟩
        intro e he
        rcases Dict.mem_insert _ _ _ _ he with he' | he'
        · exact hwf.2 e he'
        · rw [he']
          refine ⟨(Dict.hasKey_iff_mem_keys _ _).mp h, ?_⟩
          intro v hv
          rcases List.mem_append.mp hv with hv | hv
          · rcases adjOf_mem g hv with ⟨l, hl, hvl⟩
            exact (hwf.2 _ hl).2 v hvl
          · rw [List.mem_singleton.mp hv]
            exact hid
      · exact hid
    · simpa [addDeps, h] using hwf

theorem add_task_WF (g : DependencyGraph) (t : TaskDefinition)
    (hwf : WFGraph g) : WFGraph ((g.add_task t).1) := by
  rw [add_task]
  apply addDeps_WF
  · constructor
    · exact Dict.keys_insert_nodup _ _ _ hwf.1
    · intro e he
      rcases Dict.mem_insert _ _ _ _ he with he' | he'
      · refine ⟨?_, ?_⟩
        · exact (Dict.keys_insert _ _ _ _).mpr (Or.inl ((hwf.2 e he').1))
        · intro v hv
          exact (Dict.keys_insert _ _ _ _).mpr
            (Or.inl ((hwf.2 e he').2 v hv))
      · rw [he']
        refine ⟨(Dict.keys_insert _ _ _ _).mpr (Or.inr rfl), ?_⟩
        intro v hv
        simp at hv
  · exact (Dict.keys_insert _ _ _ _).mpr (Or.inr rfl)

theorem buildGraph_WF :
    ∀ (ts : List TaskDefinition) (g0 : DependencyGraph),
      WFGraph g0 → WFGraph ((buildGraph ts g0).1) := by
  intro ts
  induction ts with
  | nil => intro g0 h; exact h
  | cons t rest ih =>
    intro g0 h
    rcases ha : g0.add_task t with ⟨g1, oe⟩
    have hg1 : WFGraph g1 := by
      have := add_task_WF g0 t h
      rw [ha] at this
      exact this
    cases oe with
    | none =>
      rw [show buildGraph (t :: rest) g0 = buildGraph rest g1 by
        simp [buildGraph, ha]]
      exact ih g1 hg1
    | some e =>
      rw [show buildGraph (t :: rest) g0 = (g1, some e) by
        simp [buildGraph, ha]]
      exact hg1

theorem emptyGraph_WF : WFGraph ({} : DependencyGraph) := by
  constructor
  · simp [Dict.keys]
  · intro e he
    simp at he

theorem closedWalk_hasCycle {g : DependencyGraph} {c : List String}
    (h : ClosedWalk g c) : HasCycle g := by
  rcases h with ⟨x, l, _, hchain⟩
  exact ⟨x, l, hchain⟩

theorem cycleSlice_closedWalk (g : DependencyGraph) (path1 : List String)
    (nb : String) (hmem : nb ∈ path1)
    (hchain : List.Chain' (Edge g) (path1 ++ [nb])) :
    ClosedWalk g (cycleSlice path1 nb) := by
  have hidx : path1.indexOf nb < path1.length :=
    List.indexOf_lt_length.mpr hmem
  have hdropeq : path1.drop (path1.indexOf nb) =
      nb :: path1.drop (path1.indexOf nb + 1) := by
    rw [List.drop_eq_getElem_cons hidx, List.getElem_indexOf hidx]
  have hchain' := hchain.drop (path1.indexOf nb)
  rw [List.drop_append_of_le_length (Nat.le_of_lt hidx), hdropeq] at hchain'
  refine ⟨nb, path1.drop (path1.indexOf nb + 1), ?_, ?_⟩
  · rw [cycleSlice, hdropeq]
    rfl
  · exact hchain'

theorem chain'_snoc {g : DependencyGraph} {l : List String}
    {a b : String} (hchain : List.Chain' (Edge g) l)
    (hlast : l.getLast? = some a) (hedge : Edge g a b) :
    List.Chain' (Edge g) (l ++ [b]) := by
  rw [List.chain'_append]
  refine ⟨hchain, List.chain'_singleton _, ?_⟩
  intro x hx y hy
  rw [hlast, Option.mem_some_iff] at hx
  simp only [List.head?_cons, Option.mem_some_iff] at hy
  rw [← hx, ← hy]
  exact hedge

theorem detectGoAux_spec (g : DependencyGraph) (hwf : WFGraph g)
    (fuel : Nat) (rec : String → List String → DetectState → DetectState)
    (hrec : DetectDfsOk g fuel rec) (node : String) (path1 : List String)
    (hlast : path1.getLast? = some node)
    (hchain1 : List.Chain' (Edge g) path1) :
    ∀ (nbrs : List String) (st : DetectState) (o : List String),
      countUn g st.visited < fuel →
      (∀ y ∈ nbrs, Edge g node y) →
      (∀ x, x ∈ st.rec_stack ↔ x ∈ path1) →
      (∀ x, x ∈ st.visited ↔ x ∈ o ∨ x ∈ path1) →
      o.Nodup →
      (st.cycles = [] →
        SuccClosed g o ∧ NoFwdEdge g o ∧ ∀ x ∈ o, ¬ Edge g x x) →
      ∃ Δ,
        (∀ x, x ∈ (detectGoAux rec path1 nbrs st).visited ↔
          x ∈ o ++ Δ ∨ x ∈ path1) ∧
        (∀ y ∈ Δ, y ∉ st.visited) ∧
        (o ++ Δ).Nodup ∧
        (detectGoAux rec path1 nbrs st).rec_stack = st.rec_stack ∧
        (∃ cs, (detectGoAux rec path1 nbrs st).cycles = st.cycles ++ cs) ∧
        (∀ c ∈ (detectGoAux rec path1 nbrs st).cycles,
          c ∈ st.cycles ∨ ClosedWalk g c) ∧
        ((detectGoAux rec path1 nbrs st).cycles = [] →
          (SuccClosed g (o ++ Δ) ∧ NoFwdEdge g (o ++ Δ) ∧
            ∀ x ∈ o ++ Δ, ¬ Edge g x x) ∧
          ∀ y ∈ nbrs, y ∈ o ++ Δ) := by
  intro nbrs
  induction nbrs with
  | nil =>
    intro st o hcount hedges hrs hvis hnod hcond
    refine ⟨[], ?_, by simp, by simpa using hnod, rfl,
      ⟨[], (List.append_nil _).symm⟩, fun c hc => Or.inl hc, ?_⟩
    · simpa using hvis
    · intro hcyc
      exact ⟨by simpa using hcond hcyc, by simp⟩
  | cons nb rest ih =>
    intro st o hcount hedges hrs hvis hnod hcond
    have hedge_nb : Edge g node nb := hedges nb (List.mem_cons_self _ _)
    by_cases hv : nb ∈ st.visited
    · by_cases hr : nb ∈ st.rec_stack
      · -- back edge: a cycle is recorded, visited and stack unchanged
        have hgo : detectGoAux rec path1 (nb :: rest) st =
            detectGoAux rec path1 rest
              { st with cycles := st.cycles ++ [cycleSlice path1 nb] } := by
          simp only [detectGoAux]
          rw [if_pos hv, if_pos hr]
        have hslice : ClosedWalk g (cycleSlice path1 nb) :=
          cycleSlice_closedWalk g path1 nb ((hrs nb).mp hr)
            (chain'_snoc hchain1 hlast hedge_nb)
        rcases ih { st with cycles := st.cycles ++ [cycleSlice path1 nb] }
            o hcount (fun y hy => hedges y (List.mem_cons_of_mem _ hy))
            hrs hvis hnod (fun h => absurd h (by simp)) with
          ⟨Δ, hv1, hfresh1, hnod1, hrs1, ⟨cs1, hcy1⟩, hsound1, hcond1⟩
        rw [hgo]
        refine ⟨Δ, hv1, hfresh1, hnod1, hrs1,
          ⟨cycleSlice path1 nb :: cs1, by simpa using hcy1⟩, ?_, ?_⟩
        · intro c hc
          rcases hsound1 c hc with hc' | hc'
          · rcases List.mem_append.mp hc' with hc'' | hc''
            · exact Or.inl hc''
            · right
              rw [List.mem_singleton.mp hc'']
              exact hslice
          · exact Or.inr hc'
        · intro hcyc
          exfalso
          rw [hcy1] at hcyc
          simp at hcyc
      · -- neighbor already finished
        have hgo : detectGoAux rec path1 (nb :: rest) st =
            detectGoAux rec path1 rest st := by
          simp only [detectGoAux]
          rw [if_pos hv, if_neg hr]
        rcases ih st o hcount
            (fun y hy => hedges y (List.mem_cons_of_mem _ hy))
            hrs hvis hnod hcond with
          ⟨Δ, hv1, hfresh1, hnod1, hrs1, hcys1, hsound1, hcond1⟩
        rw [hgo]
        refine ⟨Δ, hv1, hfresh1, hnod1, hrs1, hcys1, hsound1, ?_⟩
        intro hcyc
        rcases hcond1 hcyc with ⟨hT, hnbrs⟩
        refine ⟨hT, ?_⟩
        intro y hy
        rcases List.mem_cons.mp hy with hy' | hy'
        · subst hy'
          rcases (hvis y).mp hv with h | h
          · exact List.mem_append_left _ h
          · exact absurd ((hrs y).mpr h) hr
        · exact hnbrs y hy'
    · -- unvisited: recurse into the neighbor
      have hnbkey : nb ∈ g.tasks.keys := (edge_mem_keys hwf hedge_nb).2
      have hchain_nb : List.Chain' (Edge g) (path1 ++ [nb]) :=
        chain'_snoc hchain1 hlast hedge_nb
      rcases hrec nb path1 st o hcount hnbkey hv hchain_nb hrs hvis hnod
          hcond with
        ⟨Δ₁, hv1, hnb1, hfresh1, hnod1, hrs1, ⟨cs1, hcy1⟩, hsound1, hcond1⟩
      have hgo : detectGoAux rec path1 (nb :: rest) st =
          detectGoAux rec path1 rest (rec nb path1 st) := by
        simp only [detectGoAux]
        rw [if_neg hv]
      have hsubvis : ∀ x, x ∈ st.visited → x ∈ (rec nb path1 st).visited := by
        intro x hx
        rw [hv1]
        rcases (hvis x).mp hx with h | h
        · exact Or.inl (List.mem_append_left _ h)
        · exact Or.inr h
      have hcount' : countUn g (rec nb path1 st).visited < fuel :=
        Nat.lt_of_le_of_lt (countUn_le g hsubvis) hcount
      have hrs' : ∀ x, x ∈ (rec nb path1 st).rec_stack ↔ x ∈ path1 := by
        intro x
        rw [hrs1]
        exact hrs x
      rcases ih (rec nb path1 st) (o ++ Δ₁) hcount'
          (fun y hy => hedges y (List.mem_cons_of_mem _ hy))
          hrs' hv1 hnod1 hcond1 with
        ⟨Δ₂, hv2, hfresh2, hnod2, hrs2, ⟨cs2, hcy2⟩, hsound2, hcond2⟩
      rw [hgo]
      refine ⟨Δ₁ ++ Δ₂, ?_, ?_, ?_, ?_, ?_, ?_, ?_⟩
      · intro x
        rw [← List.append_assoc]
        exact hv2 x
      · intro y hy
        rcases List.mem_append.mp hy with hy' | hy'
        · exact hfresh1 y hy'
        · intro hc
          exact hfresh2 y hy' (hsubvis y hc)
      · rw [← List.append_assoc]
        exact hnod2
      · rw [hrs2, hrs1]
      · exact ⟨cs1 ++ cs2, by rw [hcy2, hcy1, List.append_assoc]⟩
      · intro c hc
        rcases hsound2 c hc with hc' | hc'
        · exact hsound1 c hc'
        · exact Or.inr hc'
      · intro hcyc
        rcases hcond2 hcyc with ⟨hT, hnbrs⟩
        rw [← List.append_assoc]
        refine ⟨hT, ?_⟩
        intro y hy
        rcases List.mem_cons.mp hy with hy' | hy'
        · subst hy'
          exact List.mem_append_left _ (List.mem_append_right _ hnb1)
        · exact hnbrs y hy'

theorem detectDfs_spec (g : DependencyGraph) (hwf : WFGraph g) :
    ∀ fuel, DetectDfsOk g fuel (detectDfs g fuel) := by
  intro fuel
  induction fuel with
  | zero =>
    intro node path st o hcount
    exact absurd hcount (Nat.not_lt_zero _)
  | succ f ihf =>
    intro node path st o hcount hkey hnvis hchain hrs hvis hnod hcond
    set st1 : DetectState :=
      { st with visited := node :: st.visited
                rec_stack := node :: st.rec_stack } with hst1
    set st2 : DetectState :=
      detectGoAux (detectDfs g f) (path ++ [node]) (g.adjOf node) st1
      with hst2
    have hres : detectDfs g (f + 1) node path st =
        { st2 with rec_stack := st2.rec_stack.erase node } := rfl
    have hcount1 : countUn g st1.visited < f := by
      have h1 : countUn g st1.visited < countUn g st.visited :=
        countUn_lt g (fun x hx => List.mem_cons_of_mem _ hx) hkey hnvis
          (List.mem_cons_self _ _)
      omega
    have hrs1 : ∀ x, x ∈ st1.rec_stack ↔ x ∈ path ++ [node] := by
      intro x
      show x ∈ node :: st.rec_stack ↔ _
      rw [List.mem_cons, hrs x, List.mem_append, List.mem_singleton]
      tauto
    have hvis1 : ∀ x, x ∈ st1.visited ↔ x ∈ o ∨ x ∈ path ++ [node] := by
      intro x
      show x ∈ node :: st.visited ↔ _
      rw [List.mem_cons, hvis x, List.mem_append, List.mem_singleton]
      tauto
    rcases detectGoAux_spec g hwf f (detectDfs g f) ihf node
        (path ++ [node]) (List.getLast?_concat _) hchain (g.adjOf node)
        st1 o hcount1 (fun y hy => hy) hrs1 hvis1 hnod hcond with
      ⟨Δ₂, hv2, hfresh2, hnod2, hrs2, ⟨cs, hcy⟩, hsound2, hcond2⟩
    have hnode_not : node ∉ o ++ Δ₂ := by
      intro hc
      rcases List.mem_append.mp hc with hc' | hc'
      · exact hnvis ((hvis node).mpr (Or.inl hc'))
      · exact hfresh2 node hc' (List.mem_cons_self _ _)
    refine ⟨Δ₂ ++ [node], ?_, ?_, ?_, ?_, ?_, ?_, ?_, ?_⟩
    · intro x
      show x ∈ st2.visited ↔ _
      rw [hv2 x]
      simp only [List.mem_append, List.mem_singleton]
      tauto
    · exact List.mem_append_right _ (List.mem_singleton.mpr rfl)
    · intro y hy
      rcases List.mem_append.mp hy with hy' | hy'
      · intro hc
        exact hfresh2 y hy' (List.mem_cons_of_mem _ hc)
      · rw [List.mem_singleton.mp hy']
        exact hnvis
    · rw [← List.append_assoc]
      rw [List.nodup_append]
      refine ⟨hnod2, List.nodup_singleton _, ?_⟩
      intro a ha heq
      rw [List.mem_singleton.mp heq] at ha
      exact hnode_not ha
    · show st2.rec_stack.erase node = st.rec_stack
      rw [hrs2]
      exact List.erase_cons_head _ _
    · exact ⟨cs, hcy⟩
    · exact hsound2
    · intro hcyc
      rcases hcond2 hcyc with ⟨⟨hT1, hT2, hT3⟩, hnbrs⟩
      rw [← List.append_assoc]
      refine ⟨?_, ?_, ?_⟩
      · intro x hx y hxy
        rcases List.mem_append.mp hx with hx' | hx'
        · exact List.mem_append_left _ (hT1 x hx' y hxy)
        · rw [List.mem_singleton.mp hx'] at hxy
          exact List.mem_append_left _ (hnbrs y hxy)
      · rw [NoFwdEdge, List.pairwise_append]
        refine ⟨hT2, List.pairwise_singleton _ _, ?_⟩
        intro a ha b hb
        rw [List.mem_singleton.mp hb]
        intro hedge
        exact hnode_not (hT1 a ha node hedge)
      · intro x hx
        rcases List.mem_append.mp hx with hx' | hx'
        · exact hT3 x hx'
        · rw [List.mem_singleton.mp hx']
          intro hedge
          exact hnode_not (hnbrs node hedge)

theorem countUn_lt_graphFuel (g : DependencyGraph) (vis : List String) :
    countUn g vis < graphFuel g := by
  have h1 : countUn g vis ≤ g.tasks.keys.length :=
    List.length_filter_le _ _
  have h2 : g.tasks.keys.length < graphFuel g := by
    rw [graphFuel]
    omega
  omega

theorem detectFold_spec (g : DependencyGraph) (hwf : WFGraph g) :
    ∀ (ks : List String) (st : DetectState) (o : List String),
      (∀ k ∈ ks, k ∈ g.tasks.keys) →
      st.rec_stack = [] →
      (∀ x, x ∈ st.visited ↔ x ∈ o) →
      o.Nodup →
      (st.cycles = [] →
        SuccClosed g o ∧ NoFwdEdge g o ∧ ∀ x ∈ o, ¬ Edge g x x) →
      ∃ Δ,
        (∀ x, x ∈ (ks.foldl (fun st k => if k ∈ st.visited then st
          else detectDfs g (graphFuel g) k [] st) st).visited ↔
            x ∈ o ++ Δ) ∧
        (o ++ Δ).Nodup ∧
        (ks.foldl (fun st k => if k ∈ st.visited then st
          else detectDfs g (graphFuel g) k [] st) st).rec_stack = [] ∧
        (∃ cs, (ks.foldl (fun st k => if k ∈ st.visited then st
          else detectDfs g (graphFuel g) k [] st) st).cycles =
            st.cycles ++ cs) ∧
        (∀ c ∈ (ks.foldl (fun st k => if k ∈ st.visited then st
          else detectDfs g (graphFuel g) k [] st) st).cycles,
            c ∈ st.cycles ∨ ClosedWalk g c) ∧
        ((ks.foldl (fun st k => if k ∈ st.visited then st
          else detectDfs g (graphFuel g) k [] st) st).cycles = [] →
            SuccClosed g (o ++ Δ) ∧ NoFwdEdge g (o ++ Δ) ∧
              ∀ x ∈ o ++ Δ, ¬ Edge g x x) ∧
        (∀ k ∈ ks, k ∈ (ks.foldl (fun st k => if k ∈ st.visited then st
          else detectDfs g (graphFuel g) k [] st) st).visited) := by
  intro ks
  induction ks with
  | nil =>
    intro st o _ hrs hvis hnod hcond
    exact ⟨[], by simpa using hvis, by simpa using hnod, hrs,
      ⟨[], (List.append_nil _).symm⟩, fun c hc => Or.inl hc,
      fun hcyc => by simpa using hcond hcyc, by simp⟩
  | cons k ks ih =>
    intro st o hks hrs hvis hnod hcond
    have hkkey : k ∈ g.tasks.keys := hks k (List.mem_cons_self _ _)
    by_cases hkv : k ∈ st.visited
    · have hfold : (k :: ks).foldl (fun st k => if k ∈ st.visited then st
          else detectDfs g (graphFuel g) k [] st) st =
          ks.foldl (fun st k => if k ∈ st.visited then st
            else detectDfs g (graphFuel g) k [] st) st := by
        rw [List.foldl_cons, if_pos hkv]
      rw [hfold]
      rcases ih st o (fun x hx => hks x (List.mem_cons_of_mem _ hx)) hrs
          hvis hnod hcond with
        ⟨Δ, hv1, hnod1, hrs1, hcys1, hsound1, hcond1, hcov1⟩
      refine ⟨Δ, hv1, hnod1, hrs1, hcys1, hsound1, hcond1, ?_⟩
      intro x hx
      rcases List.mem_cons.mp hx with hx' | hx'
      · subst hx'
        rw [hv1]
        exact List.mem_append_left _ ((hvis x).mp hkv)
      · exact hcov1 x hx'
    · have hfold : (k :: ks).foldl (fun st k => if k ∈ st.visited then st
          else detectDfs g (graphFuel g) k [] st) st =
          ks.foldl (fun st k => if k ∈ st.visited then st
            else detectDfs g (graphFuel g) k [] st)
            (detectDfs g (graphFuel g) k [] st) := by
        rw [List.foldl_cons, if_neg hkv]
      have hrsiff : ∀ x, x ∈ st.rec_stack ↔ x ∈ ([] : List String) := by
        intro x
        rw [hrs]
      have hvisiff : ∀ x, x ∈ st.visited ↔ x ∈ o ∨ x ∈ ([] : List String) := by
        intro x
        rw [hvis x]
        simp
      rcases detectDfs_spec g hwf (graphFuel g) k [] st o
          (countUn_lt_graphFuel g _) hkkey hkv
          (by simpa using List.chain'_singleton k) hrsiff hvisiff hnod
          hcond with
        ⟨Δ₁, hv1, hk1, hfresh1, hnod1, hrs1, ⟨cs1, hcy1⟩, hsound1, hcond1⟩
      have hrs1' : (detectDfs g (graphFuel g) k [] st).rec_stack = [] := by
        rw [hrs1, hrs]
      have hvis1' : ∀ x,
          x ∈ (detectDfs g (graphFuel g) k [] st).visited ↔ x ∈ o ++ Δ₁ := by
        intro x
        rw [hv1 x]
        simp
      have hcond1' : (detectDfs g (graphFuel g) k [] st).cycles = [] →
          SuccClosed g (o ++ Δ₁) ∧ NoFwdEdge g (o ++ Δ₁) ∧
            ∀ x ∈ o ++ Δ₁, ¬ Edge g x x := hcond1
      rcases ih (detectDfs g (graphFuel g) k [] st) (o ++ Δ₁)
          (fun x hx => hks x (List.mem_cons_of_mem _ hx)) hrs1' hvis1'
          hnod1 hcond1' with
        ⟨Δ₂, hv2, hnod2, hrs2, ⟨cs2, hcy2⟩, hsound2, hcond2, hcov2⟩
      rw [hfold]
      refine ⟨Δ₁ ++ Δ₂, ?_, ?_, hrs2, ?_, ?_, ?_, ?_⟩
      · intro x
        rw [← List.append_assoc]
        exact hv2 x
      · rw [← List.append_assoc]
        exact hnod2
      · exact ⟨cs1 ++ cs2, by rw [hcy2, hcy1, List.append_assoc]⟩
      · intro c hc
        rcases hsound2 c hc with hc' | hc'
        · exact hsound1 c hc'
        · exact Or.inr hc'
      · intro hcyc
        rw [← List.append_assoc]
        exact hcond2 hcyc
      · intro x hx
        rcases List.mem_cons.mp hx with hx' | hx'
        · subst hx'
          rw [hv2]
          exact List.mem_append_left _ (List.mem_append_right _ hk1)
        · exact hcov2 x hx'

/-- Every path `detect_cycles` returns is a genuine closed edge walk, so
a non-empty result implies a directed cycle. -/
theorem detect_cycles_sound (g : DependencyGraph) (hwf : WFGraph g)
    (hne : g.detect_cycles ≠ []) : HasCycle g := by
  rcases detectFold_spec g hwf g.tasks.keys ⟨[], [], []⟩ []
      (fun k hk => hk) rfl (by simp) List.nodup_nil
      (fun _ => ⟨fun x hx => by simp at hx, List.Pairwise.nil,
        fun x hx => by simp at hx⟩) with
    ⟨Δ, _, _, _, _, hsound, _, _⟩
  rw [detect_cycles] at hne
  rcases List.exists_mem_of_ne_nil _ hne with ⟨c, hc⟩
  rcases hsound c hc with hc' | hc'
  · simp at hc'
  · exact closedWalk_hasCycle hc'

/-- An empty `detect_cycles` result means the graph is acyclic. -/
theorem detect_cycles_complete (g : DependencyGraph) (hwf : WFGraph g)
    (hemp : g.detect_cycles = []) : ¬ HasCycle g := by
  rcases detectFold_spec g hwf g.tasks.keys ⟨[], [], []⟩ []
      (fun k hk => hk) rfl (by simp) List.nodup_nil
      (fun _ => ⟨fun x hx => by simp at hx, List.Pairwise.nil,
        fun x hx => by simp at hx⟩) with
    ⟨Δ, hv, hnod, _, _, _, hcond, hcov⟩
  rw [detect_cycles] at hemp
  rcases hcond hemp with ⟨hT1, hT2, hT3⟩
  apply no_cycle_of_topo g ([] ++ Δ) hnod hT1 hT2 hT3
  intro u v he
  have hu : u ∈ g.tasks.keys := (edge_mem_keys hwf he).1
  have := hcov u hu
  rw [hv] at this
  exact this

end DependencyGraph

/-! ### C3: cycle guard of execute_tasks -/

/-- C3: when the graph built from the submitted tasks is cyclic,
`execute_tasks` stops at the cycle check: for every browser, fuel bound
and manager state it returns the cycle error carrying all detected
cycles with the manager state unchanged (so no task executes and the
results mapping gains no entry), and the graph really has a directed
cycle; an empty `detect_cycles` result conversely means the graph is
acyclic; and on the hand-built graph with edges A→B→C→A, `detect_cycles`
returns the single path [A, B, C, A], which contains A, B and C. -/
theorem execute_tasks_cycle_guard
    (ts : List TaskDefinition) (g : DependencyGraph)
    (hbuild : buildGraph ts {} = (g, none)) :
    (g.detect_cycles ≠ [] →
      (∀ (b : Browser) (fuel : Nat) (el : ℚ) (mgr : ManagerState),
          execute_tasks b fuel el mgr ts = (mgr, .cycleError g.detect_cycles)) ∧
        DependencyGraph.HasCycle g) ∧
    (g.detect_cycles = [] → ¬ DependencyGraph.HasCycle g) ∧
    cycleGraphABC.detect_cycles = [["A", "B", "C", "A"]] := by
  have hwf : DependencyGraph.WFGraph g := by
    have h := DependencyGraph.buildGraph_WF ts {} DependencyGraph.emptyGraph_WF
    rw [hbuild] at h
    exact h
  refine ⟨fun hcyc => ⟨?_, DependencyGraph.detect_cycles_sound g hwf hcyc⟩,
    fun hemp => DependencyGraph.detect_cycles_complete g hwf hemp, by decide⟩
  intro b fuel el mgr
  unfold execute_tasks
  rw [hbuild]
  simp only [ne_eq, hcyc, not_false_iff, if_true]

/-- C3 witness: the self-loop graph built from the single self-dependent
task (the only cyclic graph `add_task` itself lets through). -/
theorem execute_tasks_cycle_guard_witness :
    (gSelf.detect_cycles ≠ [] →
      (∀ (b : Browser) (fuel : Nat) (el : ℚ) (mgr : ManagerState),
          execute_tasks b fuel el mgr [taskSelf] =
            (mgr, .cycleError gSelf.detect_cycles)) ∧
        DependencyGraph.HasCycle gSelf) ∧
    (gSelf.detect_cycles = [] → ¬ DependencyGraph.HasCycle gSelf) ∧
    cycleGraphABC.detect_cycles = [["A", "B", "C", "A"]] :=
  execute_tasks_cycle_guard [taskSelf] gSelf rfl

/-! ### C7: topological execution order -/

namespace DependencyGraph

theorem orderGoAux_spec (g : DependencyGraph) (hwf : WFGraph g)
    (hacyc : ¬ HasCycle g) (fuel : Nat)
    (rec : String → OrderState → OrderState)
    (hrec : OrderDfsOk g fuel rec) (node : String) (path1 : List String)
    (hlast : path1.getLast? = some node)
    (hchain1 : List.Chain' (Edge g) path1) :
    ∀ (nbrs : List String) (st : OrderState),
      countUn g st.visited < fuel →
      (∀ y ∈ nbrs, Edge g node y) →
      (∀ x, x ∈ st.visited ↔ x ∈ st.order ∨ x ∈ path1) →
      st.order.Nodup →
      (∀ x ∈ st.order, x ∈ Dict.keys g.tasks) →
      SuccClosed g st.order →
      NoFwdEdge g st.order →
      ∃ Δ,
        (orderGoAux rec nbrs st).order = st.order ++ Δ ∧
        (∀ y ∈ Δ, y ∉ st.visited) ∧
        (∀ x, x ∈ (orderGoAux rec nbrs st).visited ↔
          x ∈ (orderGoAux rec nbrs st).order ∨ x ∈ path1) ∧
        (orderGoAux rec nbrs st).order.Nodup ∧
        (∀ x ∈ (orderGoAux rec nbrs st).order, x ∈ Dict.keys g.tasks) ∧
        SuccClosed g (orderGoAux rec nbrs st).order ∧
        NoFwdEdge g (orderGoAux rec nbrs st).order ∧
        ∀ y ∈ nbrs, y ∈ (orderGoAux rec nbrs st).order := by
  intro nbrs
  induction nbrs with
  | nil =>
    intro st hcount hedges hvis hnod hkeys hSC hNF
    exact ⟨[], (List.append_nil _).symm, by simp, hvis, hnod, hkeys, hSC,
      hNF, by simp⟩
  | cons nb rest ih =>
    intro st hcount hedges hvis hnod hkeys hSC hNF
    have hedge_nb : Edge g node nb := hedges nb (List.mem_cons_self _ _)
    by_cases hv : nb ∈ st.visited
    · -- a visited neighbor is finished: a grey one would close a cycle
      have hnb_ord : nb ∈ st.order := by
        rcases (hvis nb).mp hv with h | h
        · exact h
        · exact absurd
            (closedWalk_hasCycle (cycleSlice_closedWalk g path1 nb h
              (chain'_snoc hchain1 hlast hedge_nb))) hacyc
      have hgo : orderGoAux rec (nb :: rest) st = orderGoAux rec rest st := by
        simp only [orderGoAux]
        rw [if_pos hv]
      rcases ih st hcount (fun y hy => hedges y (List.mem_cons_of_mem _ hy))
          hvis hnod hkeys hSC hNF with
        ⟨Δ, hord, hfresh, hvis1, hnod1, hkeys1, hSC1, hNF1, hnbrs1⟩
      rw [hgo]
      refine ⟨Δ, hord, hfresh, hvis1, hnod1, hkeys1, hSC1, hNF1, ?_⟩
      intro y hy
      rcases List.mem_cons.mp hy with hy' | hy'
      · subst hy'
        rw [hord]
        exact List.mem_append_left _ hnb_ord
      · exact hnbrs1 y hy'
    · -- unvisited: recurse into the neighbor
      have hnbkey : nb ∈ Dict.keys g.tasks := (edge_mem_keys hwf hedge_nb).2
      have hchain_nb : List.Chain' (Edge g) (path1 ++ [nb]) :=
        chain'_snoc hchain1 hlast hedge_nb
      rcases hrec nb path1 st hcount hnbkey hv hchain_nb hvis hnod hkeys
          hSC hNF with
        ⟨Δ₁, hord1, hnb1, hfresh1, hvis1, hnod1, hkeys1, hSC1, hNF1⟩
      have hgo : orderGoAux rec (nb :: rest) st =
          orderGoAux rec rest (rec nb st) := by
        simp only [orderGoAux]
        rw [if_neg hv]
      have hsubvis : ∀ x, x ∈ st.visited → x ∈ (rec nb st).visited := by
        intro x hx
        rw [hvis1]
        rcases (hvis x).mp hx with h | h
        · rw [hord1]
          exact Or.inl (List.mem_append_left _ h)
        · exact Or.inr h
      have hcount' : countUn g (rec nb st).visited < fuel :=
        Nat.lt_of_le_of_lt (countUn_le g hsubvis) hcount
      rcases ih (rec nb st) hcount'
          (fun y hy => hedges y (List.mem_cons_of_mem _ hy))
          hvis1 hnod1 hkeys1 hSC1 hNF1 with
        ⟨Δ₂, hord2, hfresh2, hvis2, hnod2, hkeys2, hSC2, hNF2, hnbrs2⟩
      rw [hgo]
      refine ⟨Δ₁ ++ Δ₂, ?_, ?_, hvis2, hnod2, hkeys2, hSC2, hNF2, ?_⟩
      · rw [hord2, hord1, List.append_assoc]
      · intro y hy
        rcases List.mem_append.mp hy with hy' | hy'
        · exact hfresh1 y hy'
        · intro hc
          exact hfresh2 y hy' (hsubvis y hc)
      · intro y hy
        rcases List.mem_cons.mp hy with hy' | hy'
        · subst hy'
          rw [hord2, hord1]
          exact List.mem_append_left _ (List.mem_append_right _ hnb1)
        · exact hnbrs2 y hy'

theorem orderDfs_spec (g : DependencyGraph) (hwf : WFGraph g)
    (hacyc : ¬ HasCycle g) :
    ∀ fuel, OrderDfsOk g fuel (orderDfs g fuel) := by
  intro fuel
  induction fuel with
  | zero =>
    intro node path st hcount
    exact absurd hcount (Nat.not_lt_zero _)
  | succ f ihf =>
    intro node path st hcount hkey hnvis hchain hvis hnod hkeys hSC hNF
    set st1 : OrderState := { st with visited := node :: st.visited }
      with hst1
    set st2 : OrderState := orderGoAux (orderDfs g f) (g.adjOf node) st1
      with hst2
    have hcount1 : countUn g st1.visited < f := by
      have h1 : countUn g st1.visited < countUn g st.visited :=
        countUn_lt g (fun x hx => List.mem_cons_of_mem _ hx) hkey hnvis
          (List.mem_cons_self _ _)
      omega
    have hvis1 : ∀ x, x ∈ st1.visited ↔
        x ∈ st1.order ∨ x ∈ path ++ [node] := by
      intro x
      show x ∈ node :: st.visited ↔ x ∈ st.order ∨ _
      rw [List.mem_cons, hvis x, List.mem_append, List.mem_singleton]
      tauto
    rcases orderGoAux_spec g hwf hacyc f (orderDfs g f) ihf node
        (path ++ [node]) (List.getLast?_concat _) hchain (g.adjOf node)
        st1 hcount1 (fun y hy => hy) hvis1 hnod hkeys hSC hNF with
      ⟨Δ₂, hord2, hfresh2, hvis2, hnod2, hkeys2, hSC2, hNF2, hnbrs2⟩
    have hnode_not : node ∉ st2.order := by
      rw [hord2]
      intro hc
      rcases List.mem_append.mp hc with hc' | hc'
      · exact hnvis ((hvis node).mpr (Or.inl hc'))
      · exact hfresh2 node hc' (List.mem_cons_self _ _)
    refine ⟨Δ₂ ++ [node], ?_, ?_, ?_, ?_, ?_, ?_, ?_, ?_⟩
    · show st2.order ++ [node] = st.order ++ (Δ₂ ++ [node])
      rw [hord2]
      show (st.order ++ Δ₂) ++ [node] = _
      rw [List.append_assoc]
    · exact List.mem_append_right _ (List.mem_singleton.mpr rfl)
    · intro y hy
      rcases List.mem_append.mp hy with hy' | hy'
      · intro hc
        exact hfresh2 y hy' (List.mem_cons_of_mem _ hc)
      · rw [List.mem_singleton.mp hy']
        exact hnvis
    · intro x
      show x ∈ st2.visited ↔ x ∈ st2.order ++ [node] ∨ x ∈ path
      rw [hvis2 x]
      simp only [List.mem_append, List.mem_singleton]
      tauto
    · show (st2.order ++ [node]).Nodup
      rw [List.nodup_append]
      refine ⟨hnod2, List.nodup_singleton _, ?_⟩
      intro a ha heq
      rw [List.mem_singleton.mp heq] at ha
      exact hnode_not ha
    · intro x hx
      rcases List.mem_append.mp hx with hx' | hx'
      · exact hkeys2 x hx'
      · rw [List.mem_singleton.mp hx']
        exact hkey
    · intro x hx y hxy
      rcases List.mem_append.mp hx with hx' | hx'
      · exact List.mem_append_left _ (hSC2 x hx' y hxy)
      · rw [List.mem_singleton.mp hx'] at hxy
        exact List.mem_append_left _ (hnbrs2 y hxy)
    · show NoFwdEdge g (st2.order ++ [node])
      rw [NoFwdEdge, List.pairwise_append]
      refine ⟨hNF2, List.pairwise_singleton _ _, ?_⟩
      intro a ha b hb
      rw [List.mem_singleton.mp hb]
      intro hedge
      exact hnode_not (hSC2 a ha node hedge)

theorem orderFold_spec (g : DependencyGraph) (hwf : WFGraph g)
    (hacyc : ¬ HasCycle g) :
    ∀ (ks : List String) (st : OrderState),
      (∀ k ∈ ks, k ∈ Dict.keys g.tasks) →
      (∀ x, x ∈ st.visited ↔ x ∈ st.order) →
      st.order.Nodup →
      (∀ x ∈ st.order, x ∈ Dict.keys g.tasks) →
      SuccClosed g st.order →
      NoFwdEdge g st.order →
      ∃ Δ,
        (ks.foldl (fun st k => if k ∈ st.visited then st
          else orderDfs g (graphFuel g) k st) st).order = st.order ++ Δ ∧
        (∀ x, x ∈ (ks.foldl (fun st k => if k ∈ st.visited then st
          else orderDfs g (graphFuel g) k st) st).visited ↔
            x ∈ (ks.foldl (fun st k => if k ∈ st.visited then st
              else orderDfs g (graphFuel g) k st) st).order) ∧
        (ks.foldl (fun st k => if k ∈ st.visited then st
          else orderDfs g (graphFuel g) k st) st).order.Nodup ∧
        (∀ x ∈ (ks.foldl (fun st k => if k ∈ st.visited then st
          else orderDfs g (graphFuel g) k st) st).order,
            x ∈ Dict.keys g.tasks) ∧
        SuccClosed g (ks.foldl (fun st k => if k ∈ st.visited then st
          else orderDfs g (graphFuel g) k st) st).order ∧
        NoFwdEdge g (ks.foldl (fun st k => if k ∈ st.visited then st
          else orderDfs g (graphFuel g) k st) st).order ∧
        ∀ k ∈ ks, k ∈ (ks.foldl (fun st k => if k ∈ st.visited then st
          else orderDfs g (graphFuel g) k st) st).order := by
  intro ks
  induction ks with
  | nil =>
    intro st _ hvis hnod hkeys hSC hNF
    exact ⟨[], (List.append_nil _).symm, hvis, hnod, hkeys, hSC, hNF,
      by simp⟩
  | cons k ks ih =>
    intro st hks hvis hnod hkeys hSC hNF
    have hkkey : k ∈ Dict.keys g.tasks := hks k (List.mem_cons_self _ _)
    by_cases hkv : k ∈ st.visited
    · have hfold : (k :: ks).foldl (fun st k => if k ∈ st.visited then st
          else orderDfs g (graphFuel g) k st) st =
          ks.foldl (fun st k => if k ∈ st.visited then st
            else orderDfs g (graphFuel g) k st) st := by
        rw [List.foldl_cons, if_pos hkv]
      rw [hfold]
      rcases ih st (fun x hx => hks x (List.mem_cons_of_mem _ hx)) hvis
          hnod hkeys hSC hNF with
        ⟨Δ, hord, hvis1, hnod1, hkeys1, hSC1, hNF1, hcov1⟩
      refine ⟨Δ, hord, hvis1, hnod1, hkeys1, hSC1, hNF1, ?_⟩
      intro x hx
      rcases List.mem_cons.mp hx with hx' | hx'
      · subst hx'
        rw [hord]
        exact List.mem_append_left _ ((hvis x).mp hkv)
      · exact hcov1 x hx'
    · have hfold : (k :: ks).foldl (fun st k => if k ∈ st.visited then st
          else orderDfs g (graphFuel g) k st) st =
          ks.foldl (fun st k => if k ∈ st.visited then st
            else orderDfs g (graphFuel g) k st)
            (orderDfs g (graphFuel g) k st) := by
        rw [List.foldl_cons, if_neg hkv]
      have hvisiff : ∀ x, x ∈ st.visited ↔
          x ∈ st.order ∨ x ∈ ([] : List String) := by
        intro x
        rw [hvis x]
        simp
      rcases orderDfs_spec g hwf hacyc (graphFuel g) k [] st
          (countUn_lt_graphFuel g _) hkkey hkv
          (by simpa using List.chain'_singleton k) hvisiff hnod hkeys
          hSC hNF with
        ⟨Δ₁, hord1, hk1, hfresh1, hvis1, hnod1, hkeys1, hSC1, hNF1⟩
      have hvis1' : ∀ x, x ∈ (orderDfs g (graphFuel g) k st).visited ↔
          x ∈ (orderDfs g (graphFuel g) k st).order := by
        intro x
        rw [hvis1 x]
        simp
      rcases ih (orderDfs g (graphFuel g) k st)
          (fun x hx => hks x (List.mem_cons_of_mem _ hx)) hvis1' hnod1
          hkeys1 hSC1 hNF1 with
        ⟨Δ₂, hord2, hvis2, hnod2, hkeys2, hSC2, hNF2, hcov2⟩
      rw [hfold]
      refine ⟨Δ₁ ++ Δ₂, ?_, hvis2, hnod2, hkeys2, hSC2, hNF2, ?_⟩
      · rw [hord2, hord1, List.append_assoc]
      · intro x hx
        rcases List.mem_cons.mp hx with hx' | hx'
        · subst hx'
          rw [hord2, hord1]
          exact List.mem_append_left _ (List.mem_append_right _ hk1)
        · exact hcov2 x hx'

/-- On a duplicate-free, successor-closed, forward-edge-free list, every
edge decreases the position in the list, so in its reverse every edge
appears source-before-target. -/
theorem indexOf_lt_of_topo (g : DependencyGraph) (o : List String)
    (hSC : SuccClosed g o) (hNF : NoFwdEdge g o)
    (hacyc : ¬ HasCycle g) (hsrc : ∀ u v, Edge g u v → u ∈ o) :
    ∀ u v, Edge g u v →
      o.reverse.indexOf u < o.reverse.indexOf v := by
  intro u v he
  have hP : o.reverse.Pairwise fun a b => ¬ Edge g b a :=
    List.pairwise_reverse.mpr hNF
  have hu : u ∈ o.reverse := List.mem_reverse.mpr (hsrc u v he)
  have hv : v ∈ o.reverse := List.mem_reverse.mpr (hSC u (hsrc u v he) v he)
  have hne : u ≠ v := by
    intro h
    subst h
    exact hacyc ⟨u, [], List.Chain.cons he List.Chain.nil⟩
  have hiu : o.reverse.indexOf u < o.reverse.length :=
    List.indexOf_lt_length.mpr hu
  have hiv : o.reverse.indexOf v < o.reverse.length :=
    List.indexOf_lt_length.mpr hv
  have hgu : o.reverse[o.reverse.indexOf u] = u := List.getElem_indexOf hiu
  have hgv : o.reverse[o.reverse.indexOf v] = v := List.getElem_indexOf hiv
  have hne' : o.reverse.indexOf u ≠ o.reverse.indexOf v := by
    intro hc
    apply hne
    rw [← hgu, ← hgv]
    congr 1
  rcases Nat.lt_or_ge (o.reverse.indexOf u) (o.reverse.indexOf v) with h | h
  · exact h
  · exfalso
    have hlt : o.reverse.indexOf v < o.reverse.indexOf u :=
      Nat.lt_of_le_of_ne h (Ne.symm hne')
    have := (List.pairwise_iff_getElem.mp hP) _ _ hiv hiu hlt
    rw [hgu, hgv] at this
    exact this he

/-- C7: on a well-formed acyclic graph, `get_execution_order` succeeds
with a permutation of all registered task ids in which, for every edge
upstream→downstream, the upstream task strictly precedes the downstream
one; and whenever `detect_cycles` is non-empty it fails with the
cyclic-dependency error instead of returning an order. -/
theorem get_execution_order_topo (g : DependencyGraph)
    (hwf : WFGraph g) :
    (¬ HasCycle g →
      ∃ ord, g.get_execution_order = Except.ok ord ∧
        List.Perm ord (Dict.keys g.tasks) ∧
        ∀ u v, Edge g u v → ord.indexOf u < ord.indexOf v) ∧
    (g.detect_cycles ≠ [] →
      g.get_execution_order = Except.error "Cyclic dependency detected") := by
  constructor
  · intro hacyc
    have hemp : g.detect_cycles = [] := by
      by_contra hne
      exact hacyc (detect_cycles_sound g hwf hne)
    rcases orderFold_spec g hwf hacyc (Dict.keys g.tasks) ⟨[], []⟩
        (fun k hk => hk) (by simp) List.nodup_nil (by simp)
        (fun x hx => by simp at hx) List.Pairwise.nil with
      ⟨Δ, hord, hvis, hnod, hkeys, hSC, hNF, hcov⟩
    have hrun : g.orderRun = (Dict.keys g.tasks).foldl
        (fun st k => if k ∈ st.visited then st
          else orderDfs g (graphFuel g) k st) ⟨[], []⟩ := rfl
    refine ⟨g.orderRun.order.reverse, ?_, ?_, ?_⟩
    · rw [get_execution_order, hemp]
      simp
    · rw [List.perm_ext_iff_of_nodup (List.nodup_reverse.mpr (hrun ▸ hnod))
        hwf.1]
      intro a
      rw [List.mem_reverse, hrun]
      exact ⟨fun h => hkeys a h, fun h => hcov a h⟩
    · intro u v he
      rw [hrun]
      exact indexOf_lt_of_topo g _ hSC hNF hacyc
        (fun u' v' he' =>
          hcov u' (edge_mem_keys hwf he').1) u v he
  · intro hne
    rw [get_execution_order, if_pos hne]

/-- C7 witness: the two-task chain graph A→C, whose acyclicity is
discharged by the rank function that maps A below C. -/
theorem get_execution_order_topo_witness :
    (¬ HasCycle gChainAC →
      ∃ ord, gChainAC.get_execution_order = Except.ok ord ∧
        List.Perm ord (Dict.keys gChainAC.tasks) ∧
        ∀ u v, Edge gChainAC u v → ord.indexOf u < ord.indexOf v) ∧
    (gChainAC.detect_cycles ≠ [] →
      gChainAC.get_execution_order =
        Except.error "Cyclic dependency detected") ∧
    ¬ HasCycle gChainAC := by
  have hwfC : WFGraph gChainAC := ⟨by decide, by decide⟩
  have hrank : ∀ u v, Edge gChainAC u v → chainRank u < chainRank v := by
    intro u v h
    have h' : v ∈ gChainAC.adjOf u := h
    by_cases hA : u = "A"
    · subst hA
      have hadj : gChainAC.adjOf "A" = ["C"] := by decide
      rw [hadj, List.mem_singleton] at h'
      subst h'
      decide
    · exfalso
      have hu : u ∈ Dict.keys gChainAC.tasks := (edge_mem_keys hwfC h).1
      have hkeys : Dict.keys gChainAC.tasks = ["A", "C"] := by decide
      rw [hkeys] at hu
      rcases List.mem_cons.mp hu with h1 | h1
      · exact hA h1
      · rw [List.mem_singleton.mp h1] at h'
        have hadj : gChainAC.adjOf "C" = [] := by decide
        rw [hadj] at h'
        simp at h'
  have hacyc : ¬ HasCycle gChainAC :=
    no_cycle_of_rank gChainAC chainRank hrank
  exact ⟨(get_execution_order_topo gChainAC hwfC).1,
    (get_execution_order_topo gChainAC hwfC).2, hacyc⟩

end DependencyGraph

end BrowserAgent
